import Mathlib

/-!
Verification development for the memman repository: a shallow embedding of
the Buddy allocator (src/buddy.c) and the First-Fit allocator (the ffit
translation unit bundled with src/buddysmoke.c), together with theorems
settling the specification claims about them.

Machine integers are modelled as `Nat` with explicit `% 2^32` (helper `u32`)
at the points where the C code computes in `uint32_t`.  The caller-supplied
byte region is modelled as a function `ℕ → ℕ` holding byte values, indexed
by the offset from the region base `mh`; 32-bit fields stored in the region
are read and written little-endian, one byte at a time.  Host pointers are
plain naturals, with `0` playing the role of the C null pointer.
-/

namespace Memman

/-- Reduction modulo 2^32, the `uint32_t` arithmetic of the source. -/
def u32 (x : ℕ) : ℕ := x % 4294967296

/-- Sentinel pseudo pointer 0xffffffff (`NOBLOCK` in both allocators). -/
def NOBLOCK : ℕ := 4294967295

/-- Write one byte into a region (bytes are kept below 256). -/
def wr8 (m : ℕ → ℕ) (a v : ℕ) : ℕ → ℕ := fun i => if i = a then v % 256 else m i

/-- Read one byte from a region. -/
def rd8 (m : ℕ → ℕ) (a : ℕ) : ℕ := m a % 256

/-- Read a little-endian `uint32_t` stored at offset `a`. -/
def rd32 (m : ℕ → ℕ) (a : ℕ) : ℕ :=
  rd8 m a + 256 * rd8 m (a + 1) + 65536 * rd8 m (a + 2) + 16777216 * rd8 m (a + 3)

/-- Write a little-endian `uint32_t` at offset `a`. -/
def wr32 (m : ℕ → ℕ) (a v : ℕ) : ℕ → ℕ :=
  wr8 (wr8 (wr8 (wr8 m a v) (a + 1) (v / 256)) (a + 2) (v / 65536)) (a + 3) (v / 16777216)

/-- Fill `k` bytes starting at `a` with byte value `v` (`memset`). -/
def memsetB (m : ℕ → ℕ) (a v k : ℕ) : ℕ → ℕ :=
  fun i => if a ≤ i ∧ i < a + k then v % 256 else m i

/-- Copy `k` bytes from offset `src` to offset `dst` (`memcpy`; the regions
are required disjoint by the C contract, so the copy reads the pre-state). -/
def memcpyB (m : ℕ → ℕ) (dst src k : ℕ) : ℕ → ℕ :=
  fun i => if dst ≤ i ∧ i < dst + k then m (src + (i - dst)) else m i

/-- Bit-smearing step used by `nextpow2`. -/
def smear (y : ℕ) : ℕ :=
  let y1 := y ||| (y >>> 1)
  let y2 := y1 ||| (y1 >>> 2)
  let y3 := y2 ||| (y2 >>> 4)
  let y4 := y3 ||| (y3 >>> 8)
  y4 ||| (y4 >>> 16)

/-- Source `nextpow2` (buddy.c): decrement, smear all bits below the most
significant one, and add one, all in 32-bit arithmetic. -/
def np2 (x : ℕ) : ℕ := u32 (smear (u32 (x + 4294967295)) + 1)

section Np2Spec

/-- Bits of `y ||| (y >>> k)`. -/
theorem testBit_or_shiftRight (y k i : ℕ) :
    (y ||| (y >>> k)).testBit i = (y.testBit i || y.testBit (i + k)) := by
  simp [Nat.testBit_or, Nat.testBit_shiftRight, Nat.add_comm]

/-- One smearing step doubles the window of bit positions that feed a bit. -/
theorem or_shiftRight_spec {y z n : ℕ}
    (hz : ∀ i, z.testBit i = true ↔ ∃ d, d < n ∧ y.testBit (i + d) = true) :
    ∀ i, (z ||| (z >>> n)).testBit i = true ↔
      ∃ d, d < 2 * n ∧ y.testBit (i + d) = true := by
  intro i
  rw [testBit_or_shiftRight, Bool.or_eq_true, hz i, hz (i + n)]
  constructor
  · rintro (⟨d, hd, hb⟩ | ⟨d, hd, hb⟩)
    · exact ⟨d, by omega, hb⟩
    · exact ⟨n + d, by omega, by rwa [show i + (n + d) = i + n + d by omega]⟩
  · rintro ⟨d, hd, hb⟩
    by_cases h : d < n
    · exact Or.inl ⟨d, h, hb⟩
    · exact Or.inr ⟨d - n, by omega, by rwa [show i + n + (d - n) = i + d by omega]⟩

/-- Every bit of `smear y` sees the 32 bit positions above it. -/
theorem smear_testBit (y : ℕ) :
    ∀ i, (smear y).testBit i = true ↔ ∃ d, d < 32 ∧ y.testBit (i + d) = true := by
  have h1 : ∀ i, y.testBit i = true ↔ ∃ d, d < 1 ∧ y.testBit (i + d) = true := by
    intro i
    constructor
    · intro h; exact ⟨0, by omega, by simpa using h⟩
    · rintro ⟨d, hd, hb⟩; have : d = 0 := by omega
      subst this; simpa using hb
  have h2 := or_shiftRight_spec h1
  have h4 := or_shiftRight_spec h2
  have h8 := or_shiftRight_spec h4
  have h16 := or_shiftRight_spec h8
  have h32 := or_shiftRight_spec h16
  simpa [smear] using h32

/-- A set bit of `y` lies no higher than `Nat.log2 y`. -/
theorem testBit_true_le_log2 {y j : ℕ} (hy : y ≠ 0) (h : y.testBit j = true) :
    j ≤ Nat.log2 y := by
  rw [Nat.testBit_to_div_mod, decide_eq_true_eq] at h
  have hpos : 0 < y / 2 ^ j := by
    rcases Nat.eq_zero_or_pos (y / 2 ^ j) with h0 | hp
    · rw [h0] at h; simp at h
    · exact hp
  have h2 : 2 ^ j ≤ y := by
    have := Nat.div_mul_le_self y (2 ^ j)
    have h1 : 1 * 2 ^ j ≤ y / 2 ^ j * 2 ^ j := by
      exact Nat.mul_le_mul_right _ hpos
    omega
  exact (Nat.le_log2 hy).mpr h2

/-- The bit at position `Nat.log2 y` of a nonzero `y` is set. -/
theorem testBit_log2_self {y : ℕ} (hy : y ≠ 0) : y.testBit (Nat.log2 y) = true := by
  rw [Nat.testBit_to_div_mod, decide_eq_true_eq]
  have h1 : 2 ^ Nat.log2 y ≤ y := Nat.log2_self_le hy
  have h2 : y < 2 ^ (Nat.log2 y + 1) := Nat.lt_log2_self
  have hdiv : y / 2 ^ Nat.log2 y = 1 := by
    apply Nat.div_eq_of_lt_le
    · simpa using h1
    · rw [pow_succ] at h2; omega
  rw [hdiv]

/-- Logarithm bound in the convenient strict form. -/
theorem log2_lt_iff {y m : ℕ} (hy : y ≠ 0) : Nat.log2 y < m ↔ y < 2 ^ m := by
  constructor
  · intro h
    by_contra hc
    have : 2 ^ m ≤ y := by omega
    have := (Nat.le_log2 hy).mpr this
    omega
  · intro h
    by_contra hc
    have hm : m ≤ Nat.log2 y := by omega
    have := (Nat.le_log2 hy).mp hm
    omega

/-- Smearing a nonzero 32-bit value sets exactly the bits up to its top bit. -/
theorem smear_eq {y : ℕ} (hy : y ≠ 0) (hy32 : y < 2 ^ 32) :
    smear y = 2 ^ (Nat.log2 y + 1) - 1 := by
  apply Nat.eq_of_testBit_eq
  intro i
  rw [Nat.testBit_two_pow_sub_one]
  by_cases hi : i ≤ Nat.log2 y
  · have hl : Nat.log2 y < 32 := (log2_lt_iff hy).mpr hy32
    have : (smear y).testBit i = true := by
      rw [smear_testBit]
      refine ⟨Nat.log2 y - i, by omega, ?_⟩
      rw [show i + (Nat.log2 y - i) = Nat.log2 y by omega]
      exact testBit_log2_self hy
    rw [this, eq_comm, decide_eq_true_eq]
    omega
  · have : (smear y).testBit i = false := by
      rw [← Bool.not_eq_true, smear_testBit]
      rintro ⟨d, _, hb⟩
      have := testBit_true_le_log2 hy hb
      omega
    rw [this, eq_comm, decide_eq_false_iff_not]
    omega

/-- Characterisation of the source `nextpow2` on the range the allocator
uses: it returns the least power of two that is at least `x`. -/
theorem np2_eq {x : ℕ} (h1 : 2 ≤ x) (h2 : x ≤ 2 ^ 31) :
    np2 x = 2 ^ (Nat.log2 (x - 1) + 1) := by
  have hy : u32 (x + 4294967295) = x - 1 := by
    unfold u32; omega
  have hne : x - 1 ≠ 0 := by omega
  have hlt : x - 1 < 2 ^ 32 := by norm_num; omega
  have hl : Nat.log2 (x - 1) < 31 := by
    rw [log2_lt_iff hne]
    norm_num; omega
  unfold np2
  rw [hy, smear_eq hne hlt]
  have hp : 0 < 2 ^ (Nat.log2 (x - 1) + 1) := Nat.pos_pow_of_pos _ (by norm_num)
  have hb : 2 ^ (Nat.log2 (x - 1) + 1) < 4294967296 := by
    have : 2 ^ (Nat.log2 (x - 1) + 1) ≤ 2 ^ 31 := Nat.pow_le_pow_right (by norm_num) (by omega)
    norm_num at this ⊢; omega
  unfold u32
  omega

/-- The value 1 maps to 1 (the source comment's convention). -/
theorem np2_one : np2 1 = 1 := by decide

/-- On the 32-bit-safe range, `nextpow2` dominates its argument. -/
theorem np2_ge {x : ℕ} (h1 : 1 ≤ x) (h2 : x ≤ 2 ^ 31) : x ≤ np2 x := by
  rcases Nat.eq_or_lt_of_le h1 with h | h
  · rw [← h, np2_one]
  · rw [np2_eq (by omega) h2]
    have := @Nat.lt_log2_self (x - 1)
    omega

/-- On the 32-bit-safe range, `nextpow2` is below twice the argument. -/
theorem np2_le {x : ℕ} (h1 : 2 ≤ x) (h2 : x ≤ 2 ^ 31) : np2 x ≤ 2 * (x - 1) := by
  rw [np2_eq h1 h2, pow_succ]
  have h := Nat.log2_self_le (n := x - 1) (by omega)
  omega

/-- Powers of two are fixed by `Nat.log2`-exponentiation. -/
theorem log2_two_pow (k : ℕ) : Nat.log2 (2 ^ k) = k := by
  have hne : (2 : ℕ) ^ k ≠ 0 := (Nat.pos_pow_of_pos _ (by norm_num)).ne'
  have h1 : k ≤ Nat.log2 (2 ^ k) := (Nat.le_log2 hne).mpr (le_refl _)
  have h2 : Nat.log2 (2 ^ k) < k + 1 := by
    rw [log2_lt_iff hne]
    exact Nat.pow_lt_pow_right (by norm_num) (by omega)
  omega

end Np2Spec

/-!
First-Fit allocator (translation of the ffit compilation unit).  A block at
offset `a` stores `sze` (size and tag) at `a`, `nxt` at `a+4`, `prv` at
`a+8`, and its trailer tag byte at `a + size - 1`.  List walks take a fuel
argument (`hs` is always enough for a well-formed heap; the C code would
loop forever on the cyclic garbage states where fuel runs out).
-/

/-- Descriptor `ffit_heap_t` plus the byte region it manages (offsets are
relative to `mh`). -/
structure FfitHeap where
  mh : ℕ
  hs : ℕ
  first : ℕ
  last : ℕ
  mem : ℕ → ℕ

/-- Source `tag`: set the header tag bit and the trailer tag byte. -/
def ffTag (h : FfitHeap) (a : ℕ) : FfitHeap :=
  let s := rd32 h.mem a >>> 1
  let m1 := wr32 h.mem a (rd32 h.mem a ||| 1)
  { h with mem := wr8 m1 (a + s - 1) 1 }

/-- Source `untag`: clear the header tag bit (if set) and the trailer byte. -/
def ffUntag (h : FfitHeap) (a : ℕ) : FfitHeap :=
  let s := rd32 h.mem a >>> 1
  let m1 := if rd32 h.mem a % 2 = 1 then wr32 h.mem a (rd32 h.mem a ^^^ 1) else h.mem
  { h with mem := wr8 m1 (a + s - 1) 0 }

/-- Source `tagged` on a byte value: the C code uses a logical AND, so any
nonzero byte counts as tagged. -/
def ffTagged (w : ℕ) : Bool := w ≠ 0

/-- Source `bremove`: unlink block `p` from the doubly linked avail list. -/
def ffBremove (h : FfitHeap) (p : ℕ) : FfitHeap :=
  let h1 :=
    if rd32 h.mem (p + 8) ≠ NOBLOCK then
      { h with mem := wr32 h.mem (rd32 h.mem (p + 8) + 4) (rd32 h.mem (p + 4)) }
    else { h with first := rd32 h.mem (p + 4) }
  if rd32 h1.mem (p + 4) ≠ NOBLOCK then
    { h1 with mem := wr32 h1.mem (rd32 h1.mem (p + 4) + 8) (rd32 h1.mem (p + 8)) }
  else { h1 with last := rd32 h1.mem (p + 8) }

/-- Source `binsert`: insert block `q` immediately before block `p`. -/
def ffBinsert (h : FfitHeap) (p q : ℕ) : FfitHeap :=
  let h1 :=
    if rd32 h.mem (p + 8) ≠ NOBLOCK then
      { h with mem := wr32 h.mem (rd32 h.mem (p + 8) + 4) q }
    else { h with first := q }
  let h2 := { h1 with mem := wr32 h1.mem (q + 8) (rd32 h1.mem (p + 8)) }
  let h3 := { h2 with mem := wr32 h2.mem (p + 8) q }
  { h3 with mem := wr32 h3.mem (q + 4) p }

/-- Source `bfind`: walk the avail list for the block that ends at `e`. -/
def ffBfind (h : FfitHeap) (e : ℕ) : ℕ → ℕ → Option ℕ
  | 0, _ => none
  | fuel + 1, a =>
    if a = NOBLOCK then none
    else if u32 (a + (rd32 h.mem a >>> 1)) = e then some a
    else ffBfind h e fuel (rd32 h.mem (a + 4))

/-- Walk of `binssort` from node `p`, with the size `s` of the block being
inserted already computed. -/
def ffBinssortAux (h : FfitHeap) (b s : ℕ) : ℕ → ℕ → FfitHeap
  | 0, _ => h
  | fuel + 1, p =>
    if rd32 h.mem p >>> 1 ≥ s then ffBinsert h p b
    else if rd32 h.mem (p + 4) = NOBLOCK then
      let m1 := wr32 h.mem (p + 4) b
      let m2 := wr32 m1 (b + 8) p
      let m3 := wr32 m2 (b + 4) NOBLOCK
      { h with mem := m3, last := rd32 m3 (p + 4) }
    else ffBinssortAux h b s fuel (rd32 h.mem (p + 4))

/-- Source `binssort`: insert block `b` into the avail list sorted by size. -/
def ffBinssort (h : FfitHeap) (b : ℕ) : FfitHeap :=
  if h.first = NOBLOCK then
    let m1 := wr32 h.mem (b + 4) NOBLOCK
    let m2 := wr32 m1 (b + 8) NOBLOCK
    { h with first := b, last := b, mem := m2 }
  else ffBinssortAux h b (rd32 h.mem b >>> 1) h.hs h.first

/-- Source `breplace`: remove `p`, insert `q` at its sorted position. -/
def ffBreplace (h : FfitHeap) (p q : ℕ) : FfitHeap := ffBinssort (ffBremove h p) q

/-- Walk of `getblock` (first fit): take the first avail block of size at
least `sz`, splitting it when the residue exceeds `MINSIZE`. -/
def ffGetblockAux (sz : ℕ) : ℕ → FfitHeap → ℕ → ℕ × FfitHeap
  | 0, h, _ => (NOBLOCK, h)
  | fuel + 1, h, p =>
    if p = NOBLOCK then (NOBLOCK, h)
    else
      let s := rd32 h.mem p >>> 1
      if s ≥ sz then
        let h1 :=
          if s > u32 (sz + 32) then
            let q := u32 (p + sz)
            let m1 := wr32 h.mem q (u32 ((s - sz) <<< 1))
            let h2 := ffUntag { h with mem := m1 } q
            let h3 := { h2 with mem := wr32 h2.mem p (u32 (sz <<< 1)) }
            ffBreplace h3 p q
          else
            let h2 := { h with mem := wr32 h.mem p (u32 ((rd32 h.mem p >>> 1) <<< 1)) }
            ffBremove h2 p
        (p, ffTag h1 p)
      else ffGetblockAux sz fuel h (rd32 h.mem (p + 4))

/-- Source `ffit_init`. -/
def ffitInit (h0 : FfitHeap) : Int × FfitHeap :=
  let h := { h0 with first := 0, last := 0 }
  if h.hs > 32 then
    let m1 := wr32 h.mem 0 (u32 (u32 h.hs <<< 1))
    let h1 := ffUntag { h with mem := m1 } 0
    let m2 := wr32 h1.mem 4 NOBLOCK
    let m3 := wr32 m2 8 NOBLOCK
    (0, { h1 with mem := m3 })
  else (-1, h)

/-- Source `ffit_get_block`; returns the host pointer (0 for NULL) and the
updated heap.  Note the request size is truncated to `uint32_t`. -/
def ffitGet (h : FfitHeap) (sz : ℕ) : ℕ × FfitHeap :=
  if sz > 0 then
    let s0 := u32 (u32 sz + 5)
    let s := if s0 < 32 then 32 else s0
    if s < h.hs then
      let r := ffGetblockAux s h.hs h h.first
      if r.1 ≠ NOBLOCK then (h.mh + u32 (r.1 + 4), r.2) else (0, r.2)
    else (0, h)
  else (0, h)

/-- Source `freeblock` (ffit): merge with untagged neighbours and insert. -/
def ffFreeblock (h : FfitHeap) (add : ℕ) : Int × FfitHeap :=
  let s := rd32 h.mem add >>> 1
  if rd32 h.mem add % 2 = 0 then (4, h)
  else
    let step1 : Int × FfitHeap × ℕ :=
      if add > 0 ∧ ¬ ffTagged (rd8 h.mem (add - 1)) then
        match ffBfind h add h.hs h.first with
        | none => (-1, h, add)
        | some p =>
          let m1 := wr32 h.mem p (u32 (u32 ((rd32 h.mem p >>> 1) + s) <<< 1))
          ((0 : Int), ffBremove { h with mem := m1 } p, p)
      else ((0 : Int), h, add)
    let rc := step1.1
    let h1 := step1.2.1
    let b := step1.2.2
    if rc = 0 then
      let q := u32 (add + s)
      let h2 :=
        if q < h1.hs ∧ rd32 h1.mem q % 2 = 0 then
          let ns := rd32 h1.mem q >>> 1
          let m1 := wr32 h1.mem b (u32 (u32 ((rd32 h1.mem b >>> 1) + ns) <<< 1))
          ffBremove { h1 with mem := m1 } q
        else h1
      (0, ffBinssort (ffUntag h2 b) b)
    else (rc, h1)

/-- Source `ffit_free_block`: the out-of-range guard falls through with the
initial `rc = 0`. -/
def ffitFree (h : FfitHeap) (ptr : ℕ) : Int × FfitHeap :=
  if ptr - 4 ≥ h.mh ∧ ptr + 5 < h.mh + h.hs then ffFreeblock h (ptr - 4 - h.mh)
  else (0, h)

/-- Source `ffit_extend_block`; returns (pointer, rc, heap). -/
def ffitExtend (h : FfitHeap) (ptr sz : ℕ) : ℕ × Int × FfitHeap :=
  if ptr = 0 then
    let r := ffitGet h sz
    (r.1, 0, r.2)
  else if sz = 0 then
    let r := ffitFree h ptr
    (0, r.1, r.2)
  else if ptr ≥ h.mh + h.hs then (0, 0, h)
  else
    let s0 := u32 (u32 sz + 5)
    let s := if s0 < 32 then 32 else s0
    if s < h.hs then
      let add := ptr - 4 - h.mh
      let os := rd32 h.mem add >>> 1
      if os = s then (ptr, 0, h)
      else
        let r := ffitGet h s
        if r.1 ≠ 0 then
          let k := if os > s then u32 sz else os - 5
          let h2 := { r.2 with mem := memcpyB r.2.mem (r.1 + 4 - h.mh) (ptr + 4 - h.mh) k }
          let fr := ffitFree h2 ptr
          (r.1, fr.1, fr.2)
        else (r.1, 0, r.2)
    else (0, 0, h)

/-!
Buddy allocator (translation of src/buddy.c).  The main-heap bytes are
`mem` (offsets from `mh`), the avail table is `ah` (one `uint32_t` head per
size class) and the size area is `sh` (bytes).  In the C code `ah` and `sh`
live inside the second half of the region at addresses disjoint from the
main heap, so modelling them as separate stores is faithful.  A free block
at offset `a` stores `nxt` at `a` and `prv` at `a+4`.
-/

/-- Descriptor `buddy_heap_t`. -/
structure BuddyHeap where
  mh : ℕ
  hs : ℕ
  e : ℕ
  eh : ℕ
  msize : ℕ
  asize : ℕ
  ssize : ℕ
  esize : ℕ
  AMAX : ℕ
  ah : ℕ → ℕ
  sh : ℕ → ℕ
  mem : ℕ → ℕ
  ffh : FfitHeap

/-- Bit length of a value, bounded by a fuel argument (32 in use). -/
def bitlen32 : ℕ → ℕ → ℕ
  | 0, _ => 0
  | fuel + 1, n => if n = 0 then 0 else bitlen32 fuel (n / 2) + 1

/-- Count of leading zeros of a 32-bit value, the hardware `clz`. -/
def clz32 (n : ℕ) : ℕ := 32 - bitlen32 32 n

/-- Source `buddy_log2`, the formula `32 - 1 - clz(n)`; for `n ≥ 1` this is
the floor of the base-2 logarithm (`clz(0)` is undefined behaviour in C and
never reached by the claims). -/
def buddyLog2 (n : ℕ) : ℕ := 32 - 1 - clz32 n

/-- Source `findbuddy`: the companion block of `block` at class `s`. -/
def findbuddy (block s : ℕ) : ℕ :=
  let k := u32 (1 <<< s)
  if block &&& ((u32 (k <<< 1) + 4294967295) % 4294967296) = 0 then u32 (block + k)
  else (block + 4294967296 - k) % 4294967296

/-- Source `putsize`: OR the 6-bit entry for unit `i` into the size area. -/
def putsize (sh : ℕ → ℕ) (i c : ℕ) : ℕ → ℕ :=
  let p := 6 * i
  let y := p / 8
  let b := p % 8
  let sh1 := wr8 sh y (rd8 sh y ||| ((c <<< 2) >>> b))
  wr8 sh1 (y + 1) (rd8 sh1 (y + 1) ||| ((c <<< 2) <<< (8 - b)))

/-- Source `getsize`: read the 6-bit entry for unit `i`. -/
def getsize (sh : ℕ → ℕ) (i : ℕ) : ℕ :=
  let p := 6 * i
  let y := p / 8
  let b := p % 8
  (((rd8 sh y <<< b) % 256) ||| (rd8 sh (y + 1) >>> (8 - b))) >>> 2

/-- Source `erasesize`: clear the 6-bit entry for unit `i`. -/
def erasesize (sh : ℕ → ℕ) (i : ℕ) : ℕ → ℕ :=
  let p := 6 * i
  let y := p / 8
  let b := p % 8
  if b = 0 then wr8 sh y (rd8 sh y &&& (255 >>> 6))
  else
    let sh1 := wr8 sh y (rd8 sh y &&& (255 <<< (8 - b)))
    wr8 sh1 (y + 1) (rd8 sh1 (y + 1) &&& (255 >>> (b - 2)))

/-- Source `block_clean`: reset the 8 link bytes of a block to 0xff. -/
def blockClean (m : ℕ → ℕ) (add : ℕ) : ℕ → ℕ := memsetB m add 255 8

/-- Source `block_insert`: push `add` in front of `list`. -/
def blockInsert (h : BuddyHeap) (list add : ℕ) : BuddyHeap :=
  let m1 := wr32 h.mem add list
  let m2 := wr32 m1 (add + 4) NOBLOCK
  if list ≠ NOBLOCK then { h with mem := wr32 m2 (list + 4) add }
  else { h with mem := m2 }

/-- Walk of `block_remove`: find the node whose `nxt` field equals `add`. -/
def blockRemoveWalk (m : ℕ → ℕ) (add : ℕ) : ℕ → ℕ → Option ℕ
  | 0, _ => none
  | fuel + 1, tmp =>
    if tmp = NOBLOCK then none
    else if rd32 m tmp = add then some tmp
    else blockRemoveWalk m add fuel (rd32 m tmp)

/-- Source `block_remove`: unlink `add` from `list`, returning the new head
and the updated heap. -/
def blockRemove (h : BuddyHeap) (list add : ℕ) : ℕ × BuddyHeap :=
  if list = add then
    if list ≠ NOBLOCK then (rd32 h.mem list, { h with mem := blockClean h.mem list })
    else (list, h)
  else
    match blockRemoveWalk h.mem add h.msize list with
    | none => (list, h)
    | some tmp =>
      let m1 := wr32 h.mem tmp (rd32 h.mem add)
      let m2 :=
        if rd32 m1 add ≠ NOBLOCK then wr32 m1 (rd32 m1 add + 4) (rd32 m1 (add + 4))
        else m1
      (list, { h with mem := blockClean m2 add })

/-- Walk of `block_is_in`. -/
def blockIsInWalk (m : ℕ → ℕ) (add : ℕ) : ℕ → ℕ → Bool
  | 0, _ => false
  | fuel + 1, tmp =>
    if tmp = NOBLOCK then false
    else if rd32 m tmp = add then true
    else blockIsInWalk m add fuel (rd32 m tmp)

/-- Source `block_is_in`: is `add` a member of `list`? -/
def blockIsIn (h : BuddyHeap) (list add : ℕ) : Bool :=
  if list = add then true else blockIsInWalk h.mem add h.msize list

/-- Source `binsert`: insert at the head of avail list `sz`. -/
def binsertB (h : BuddyHeap) (add sz : ℕ) : BuddyHeap :=
  let h1 := blockInsert h (h.ah sz) add
  { h1 with ah := fun j => if j = sz then add else h1.ah j }

/-- Source `bremove`: remove from avail list `sz`. -/
def bremoveB (h : BuddyHeap) (add sz : ℕ) : BuddyHeap :=
  let r := blockRemove h (h.ah sz) add
  { r.2 with ah := fun j => if j = sz then r.1 else r.2.ah j }

/-- Source `bisin`. -/
def bisin (h : BuddyHeap) (add sz : ℕ) : Bool := blockIsIn h (h.ah sz) add

/-- Source `bsplit`: halve a block, pushing both halves one class down. -/
def bsplit (h : BuddyHeap) (add sz : ℕ) : BuddyHeap :=
  let h1 := bremoveB h add sz
  let s := u32 (1 <<< (sz - 1))
  let h2 := binsertB h1 (u32 (add + s)) (sz - 1)
  binsertB h2 add (sz - 1)

/-- Loop of `bjoin`; `rc` records whether a merge has already happened. -/
def bjoinAux : ℕ → BuddyHeap → ℕ → ℕ → ℕ → BuddyHeap × ℕ
  | 0, h, _, rc, _ => (h, rc)
  | fuel + 1, h, b, rc, s =>
    if s < h.AMAX then
      let buddy := findbuddy b s
      if bisin h buddy s then
        let h1 := bremoveB h buddy s
        let h2 := if rc ≠ 0 then bremoveB h1 b s else h1
        let b2 := min b buddy
        let h3 := binsertB h2 b2 (s + 1)
        bjoinAux fuel h3 b2 1 (s + 1)
      else (h, rc)
    else (h, rc)

/-- Source `bjoin`: repeatedly merge `add` with its buddy. -/
def bjoin (h : BuddyHeap) (add sz : ℕ) : BuddyHeap × ℕ :=
  bjoinAux (h.AMAX + 1) h add 0 sz

/-- Dry run of `bextend`: the first index in `[i, s)` where the loop breaks
(`s` itself when no break occurs). -/
def bextendDry (h : BuddyHeap) (b s : ℕ) : ℕ → ℕ → ℕ
  | 0, i => i
  | fuel + 1, i =>
    if i < s then
      let buddy := findbuddy b i
      if buddy < b then i
      else if ¬ bisin h buddy i then i
      else bextendDry h b s fuel (i + 1)
    else i

/-- Real run of `bextend`: remove each right-hand buddy. -/
def bextendReal (b s : ℕ) : ℕ → BuddyHeap → ℕ → BuddyHeap
  | 0, h, _ => h
  | fuel + 1, h, i =>
    if i < s then bextendReal b s fuel (bremoveB h (findbuddy b i) i) (i + 1)
    else h

/-- Source `bextend`: grow block `b` in place from class `c` to class `s`. -/
def bextend (h : BuddyHeap) (b c s : ℕ) : BuddyHeap × ℕ :=
  let i := bextendDry h b s (s + 1) c
  if i = s then
    let h1 := bextendReal b s (s + 1) h c
    let k := b >>> 3
    ({ h1 with sh := putsize (erasesize h1.sh k) k s }, 1)
  else (h, 0)

/-- Loop of `bshrink`: release the remainder `cz` starting at offset `b`,
returning the heap, the list of released (offset, bytes) blocks, and the
remainder left when fuel runs out (0 on normal exit). -/
def bshrinkLoop : ℕ → BuddyHeap → ℕ → ℕ → BuddyHeap × List (ℕ × ℕ) × ℕ
  | 0, h, _, cz => (h, [], cz)
  | fuel + 1, h, b, cz =>
    if cz > 0 then
      let k0 := np2 cz
      let k := if cz ≠ k0 then k0 >>> 2 else k0
      let h1 := binsertB h b (buddyLog2 k)
      let r := bshrinkLoop fuel h1 (u32 (b + k)) ((cz + 4294967296 - u32 k) % 4294967296)
      (r.1, (b, k) :: r.2.1, r.2.2)
    else (h, [], 0)

/-- Source `bshrink`: shrink block `b` from class `c` to class `s`. -/
def bshrink (h : BuddyHeap) (b c s : ℕ) : BuddyHeap :=
  let cz := u32 (1 <<< c)
  let szv := u32 (1 <<< s)
  let k := b >>> 3
  let h1 := { h with sh := putsize (erasesize h.sh k) k s }
  let b1 := u32 (b + szv)
  let h2 := binsertB h1 b1 s
  let b2 := u32 (b1 + szv)
  let cz2 := (cz + 4294967296 - u32 (szv <<< 1)) % 4294967296
  (bshrinkLoop (cz2 + 1) h2 b2 cz2).1

/-- The shrink computation with the 32-bit wrappers simplified away:
size-slot rewrite, insertion of the block at `b + 2^s`, then the release
loop over the remaining tail. `bshrink` is proved equal to its first
component under the allocator's ranges. -/
def bshrinkRun (h : BuddyHeap) (b c s : ℕ) : BuddyHeap × List (ℕ × ℕ) × ℕ :=
  bshrinkLoop (2 ^ c - 2 ^ (s + 1) + 1)
    (binsertB { h with sh := putsize (erasesize h.sh (b >>> 3)) (b >>> 3) s }
      (b + 2 ^ s) s)
    (b + 2 ^ (s + 1)) (2 ^ c - 2 ^ (s + 1))

/-- Search loop of `getblock`: the first index in `[i, AMAX]` whose avail
list is non-empty, `AMAX+1` if none. -/
def findAvail (h : BuddyHeap) : ℕ → ℕ → ℕ
  | 0, i => i
  | fuel + 1, i =>
    if i ≤ h.AMAX then
      if h.ah i ≠ NOBLOCK then i else findAvail h fuel (i + 1)
    else i

/-- Split loop of `getblock`: split the head block down to class `s`. -/
def splitDown (s : ℕ) : ℕ → BuddyHeap → ℕ → ℕ → ℕ × ℕ × BuddyHeap
  | 0, h, b, i => (i, b, h)
  | fuel + 1, h, b, i =>
    if i > s then
      let b2 := h.ah i
      if b2 = NOBLOCK then (i, b2, h)
      else splitDown s fuel (bsplit h b2 i) b2 (i - 1)
    else (i, b, h)

/-- Source `getblock` (buddy): allocate a block of `sz = 2^s` bytes. -/
def getblockB (h : BuddyHeap) (sz : ℕ) : ℕ × BuddyHeap :=
  let s := buddyLog2 sz
  let i0 := findAvail h (h.AMAX + 2) s
  let b0 := if i0 ≤ h.AMAX then h.ah i0 else NOBLOCK
  let r := if i0 ≤ h.AMAX then splitDown s (h.AMAX + 2) h b0 i0 else (i0, b0, h)
  if r.1 = s ∧ r.2.1 ≠ NOBLOCK then
    let h2 := bremoveB r.2.2 r.2.1 s
    (r.2.1, { h2 with sh := putsize h2.sh (r.2.1 >>> 3) s })
  else (NOBLOCK, r.2.2)

/-- Source `freeblock` (buddy); the result code is 0 (OK) or 4 (NOTFOUND). -/
def freeblockB (h : BuddyHeap) (block : ℕ) : ℕ × BuddyHeap :=
  if block &&& 7 = 0 then
    let s := getsize h.sh (block >>> 3)
    if s ≠ 0 then
      let h1 := { h with sh := erasesize h.sh (block >>> 3) }
      let r := bjoin h1 block s
      if r.2 = 0 then (0, binsertB r.1 block s) else (0, r.1)
    else (4, h)
  else (4, h)

/-- Source `extendblock` (buddy); returns (offset or NOBLOCK, rc, heap). -/
def extendblockB (h : BuddyHeap) (b sz : ℕ) : ℕ × ℕ × BuddyHeap :=
  if b &&& 7 ≠ 0 then (NOBLOCK, 4, h)
  else
    let cs := getsize h.sh (b >>> 3)
    if cs = 0 then (NOBLOCK, 4, h)
    else
      let csz := u32 (1 <<< cs)
      if csz = sz then (b, 0, h)
      else if csz < sz then
        let r := bextend h b cs (buddyLog2 sz)
        if r.2 = 1 then (b, 0, r.1)
        else
          let g := getblockB r.1 sz
          if g.1 ≠ NOBLOCK then
            let m := memcpyB g.2.mem g.1 b csz
            let fr := freeblockB { g.2 with mem := m } b
            (g.1, 0, fr.2)
          else (NOBLOCK, 0, g.2)
      else (b, 0, bshrink h b cs (buddyLog2 sz))

/-- Source `buddy_init`. -/
def buddyInit (h0 : BuddyHeap) : Int × BuddyHeap :=
  if h0.mh ≠ 0 ∧ h0.hs ≠ 0 then
    let msize := u32 (h0.hs / 2)
    let eh := h0.mh + msize
    let AMAX := buddyLog2 msize
    let asize := u32 ((AMAX + 1) * 4)
    let ssize := u32 (u32 (msize / 8 + 1) * 6) / 8
    let esize := (msize + 4294967296 - u32 (asize + ssize)) % 4294967296
    let h1 : BuddyHeap :=
      { h0 with
        msize := msize, eh := eh, AMAX := AMAX, asize := asize,
        ssize := ssize, esize := esize,
        mem := memsetB h0.mem 0 255 msize,
        sh := memsetB h0.sh 0 0 ssize,
        ah := fun i => if i < AMAX + 1 then NOBLOCK else h0.ah i }
    let h2 := binsertB h1 0 (buddyLog2 msize)
    if h2.e ≠ 0 then
      let fr := ffitInit { h2.ffh with mh := h2.eh, hs := h2.esize }
      (fr.1, { h2 with ffh := fr.2 })
    else (0, h2)
  else (-1, h0)

/-- Source `buddy_get_block`; the request is truncated to `uint32_t` before
`nextpow2`, while the `sz < MINSIZE` comparison sees the full value. -/
def buddyGet (h : BuddyHeap) (sz : ℕ) : ℕ × BuddyHeap :=
  if sz > 0 then
    let s := if sz < 8 then 8 else np2 (u32 sz)
    if s < h.msize then
      let g := getblockB h s
      if g.1 ≠ NOBLOCK then (h.mh + g.1, g.2)
      else if h.e ≠ 0 then
        let r := ffitGet g.2.ffh sz
        (r.1, { g.2 with ffh := r.2 })
      else (0, g.2)
    else (0, h)
  else (0, h)

/-- Source `buddy_free_block`.  In the main-heap branch the source maps the
`freeblock` result through `rc & NOTFOUND`/`rc < 0`; since `freeblock`
returns only 0 or 4 the negative arm is unreachable. -/
def buddyFree (h : BuddyHeap) (ptr : ℕ) : Int × BuddyHeap :=
  if ptr < h.mh ∨ ptr ≥ h.mh + h.msize + h.esize then (4, h)
  else if ptr ≥ h.eh then
    if h.e ≠ 0 then
      let r := ffitFree h.ffh ptr
      (r.1, { h with ffh := r.2 })
    else (4, h)
  else
    let r := freeblockB h (u32 (ptr - h.mh))
    if r.1 &&& 4 = 4 then (4, r.2) else (0, r.2)

/-- Source `buddy_extend_block`; returns (pointer, rc, heap). -/
def buddyExtend (h : BuddyHeap) (ptr sz : ℕ) : ℕ × Int × BuddyHeap :=
  if ptr = 0 then
    let g := buddyGet h sz
    (g.1, 0, g.2)
  else if sz = 0 then
    let f := buddyFree h ptr
    (0, f.1, f.2)
  else if ptr ≥ h.mh + h.hs then (0, 0, h)
  else if ptr ≥ h.eh then
    if h.e ≠ 0 then
      let r := ffitExtend h.ffh ptr sz
      (r.1, r.2.1, { h with ffh := r.2.2 })
    else (0, 0, h)
  else
    let s := if sz < 8 then 8 else np2 (u32 sz)
    if s < h.msize then
      let r := extendblockB h (u32 (ptr - h.mh)) s
      ((if r.1 ≠ NOBLOCK then h.mh + r.1 else 0), (r.2.1 : Int), r.2.2)
    else (0, 0, h)

/-!
Auxiliary specification-side notions and concrete example states used by the
theorems below.
-/

/-- Bit `q` of the size-area byte stream, counting bits MSB-first inside
each byte, the convention of the 6-bit codec (entry `i` occupies stream
bits `6*i` to `6*i+5`). -/
def streamBit (sh : ℕ → ℕ) (q : ℕ) : Bool := Nat.testBit (rd8 sh (q / 8)) (7 - q % 8)

/-- The blocks of `l`, in order, exactly cover the interval from `lo` to
`hi` with no gap and no overlap. -/
def tiles : ℕ → ℕ → List (ℕ × ℕ) → Prop
  | lo, hi, [] => lo = hi
  | lo, hi, (a, k) :: t => a = lo ∧ tiles (lo + k) hi t

/-- First-fit avail-chain sanity: starting from node `a`, the chain reaches
`NOBLOCK` within the given fuel and every node's block lies inside the
region. -/
def ffChainOk (h : FfitHeap) : ℕ → ℕ → Bool
  | 0, a => decide (a = NOBLOCK)
  | fuel + 1, a =>
    if a = NOBLOCK then true
    else decide (a + (rd32 h.mem a >>> 1) ≤ h.hs) && ffChainOk h fuel (rd32 h.mem (a + 4))

/-- A zeroed buddy descriptor over a 64-byte region at host address 1024. -/
def bhClear : BuddyHeap :=
  { mh := 1024, hs := 64, e := 0, eh := 0, msize := 0, asize := 0, ssize := 0,
    esize := 0, AMAX := 0, ah := fun _ => 0, sh := fun _ => 0, mem := fun _ => 0,
    ffh := { mh := 0, hs := 0, first := 0, last := 0, mem := fun _ => 0 } }

/-- The 64-byte buddy arena right after `buddy_init` (msize 32, AMAX 5). -/
def bhFresh : BuddyHeap := (buddyInit bhClear).2

/-- A zeroed buddy descriptor over a 2 MiB region (the smoke test's size). -/
def bh2M : BuddyHeap :=
  { mh := 4096, hs := 2097152, e := 0, eh := 0, msize := 0, asize := 0, ssize := 0,
    esize := 0, AMAX := 0, ah := fun _ => 0, sh := fun _ => 0, mem := fun _ => 0,
    ffh := { mh := 0, hs := 0, first := 0, last := 0, mem := fun _ => 0 } }

/-- The fresh 64-byte buddy arena after two 5-byte allocations (blocks at
offsets 0 and 8, both of class 3). -/
def bhTwo : BuddyHeap := (buddyGet (buddyGet bhFresh 5).2 5).2

/-- A zeroed first-fit descriptor over a 96-byte region at address 1000. -/
def ffClear96 : FfitHeap := { mh := 1000, hs := 96, first := 0, last := 0, mem := fun _ => 0 }

/-- The 96-byte first-fit arena right after `ffit_init`. -/
def ffFresh96 : FfitHeap := (ffitInit ffClear96).2

/-- The 96-byte arena after `get(27)` twice: block [0,32) with payload
pointer 1004 and block [32,96) with payload pointer 1036. -/
def ffTwo : FfitHeap := (ffitGet (ffitGet ffFresh96 27).2 27).2

/-- State of `ffTwo` after freeing pointer 1004 (block 0; no neighbour was
free, so no coalescing happened). -/
def ffOneFree : FfitHeap := (ffitFree ffTwo 1004).2

/-- A zeroed first-fit descriptor over a 200-byte region at address 1000. -/
def ffClear200 : FfitHeap := { mh := 1000, hs := 200, first := 0, last := 0, mem := fun _ => 0 }

/-- The 200-byte arena after init and one `get(27)` (payload pointer 1004). -/
def ffTwoHundred : FfitHeap := (ffitGet (ffitInit ffClear200).2 27).2

/-- The same arena after the caller stored ten distinct bytes 65..74 at the
start of the payload (region offsets 4..13). -/
def ffWritten : FfitHeap :=
  { ffTwoHundred with
    mem := fun i => if 4 ≤ i ∧ i < 14 then 61 + i else ffTwoHundred.mem i }

/-!
General-purpose helper lemmas.
-/

/-- Bitwise or of values with disjoint bit ranges is addition. -/
theorem lor_disj {k a b : ℕ} (ha : a % 2 ^ k = 0) (hb : b < 2 ^ k) : a ||| b = a + b := by
  have h1 : 2 ^ k * (a / 2 ^ k) = a := by
    rw [Nat.mul_comm]
    exact Nat.div_mul_cancel (Nat.dvd_of_mod_eq_zero ha)
  rw [← h1, ← Nat.mul_add_lt_is_or hb]

/-- A multiple of `2^k` has no set bits below position `k`. -/
theorem testBit_false_of_mod {x k t : ℕ} (h : x % 2 ^ k = 0) (ht : t < k) :
    x.testBit t = false := by
  have hdvd : (2 : ℕ) ^ (t + 1) ∣ x :=
    dvd_trans (pow_dvd_pow 2 (by omega)) (Nat.dvd_of_mod_eq_zero h)
  have hz : x % 2 ^ (t + 1) = 0 := Nat.mod_eq_zero_of_dvd hdvd
  have h2 := Nat.testBit_mod_two_pow x (t + 1) t
  rw [hz, Nat.zero_testBit] at h2
  have h3 : decide (t < t + 1) = true := decide_eq_true (Nat.lt_succ_self t)
  rw [h3, Bool.true_and] at h2
  exact h2.symm

/-- Masking with a multiple of `2^k` keeps the result a multiple of `2^k`. -/
theorem land_mod_two_pow_zero {x m k : ℕ} (hm : m % 2 ^ k = 0) : (x &&& m) % 2 ^ k = 0 := by
  apply Nat.eq_of_testBit_eq
  intro t
  rw [Nat.zero_testBit, Nat.testBit_mod_two_pow, Nat.testBit_and]
  by_cases ht : t < k
  · rw [testBit_false_of_mod hm ht]
    simp
  · simp [ht]

/-- Reading a byte just written. -/
theorem rd8_wr8_same (m : ℕ → ℕ) (a v : ℕ) : rd8 (wr8 m a v) a = v % 256 := by
  simp [rd8, wr8]

/-- Reading a byte other than the one written. -/
theorem rd8_wr8_ne (m : ℕ → ℕ) {a b : ℕ} (h : b ≠ a) (v : ℕ) :
    rd8 (wr8 m a v) b = rd8 m b := by
  simp [rd8, wr8, h]

/-- Byte reads are below 256. -/
theorem rd8_lt (m : ℕ → ℕ) (a : ℕ) : rd8 m a < 256 := Nat.mod_lt _ (by norm_num)

/-- The fuel-bounded bit length agrees with `Nat.log2` on its range. -/
theorem bitlen32_eq : ∀ (fuel n : ℕ), 1 ≤ n → n < 2 ^ fuel →
    bitlen32 fuel n = Nat.log2 n + 1 := by
  intro fuel
  induction fuel with
  | zero => intro n h1 h2; omega
  | succ f ih =>
    intro n h1 h2
    unfold bitlen32
    rw [if_neg (by omega)]
    by_cases hn : n < 2
    · have hn1 : n = 1 := by omega
      subst hn1
      have : bitlen32 f 0 = 0 := by cases f <;> simp [bitlen32]
      simp [this]
      rw [Nat.log2]
      simp
    · have hd1 : 1 ≤ n / 2 := by omega
      have hd2 : n / 2 < 2 ^ f := by
        rw [pow_succ] at h2
        omega
      rw [ih (n / 2) hd1 hd2]
      conv_rhs => rw [Nat.log2]
      rw [if_pos (by omega)]

/-- The translated `buddy_log2` is the base-2 logarithm on 32-bit values. -/
theorem buddyLog2_eq_log2 {n : ℕ} (h1 : 1 ≤ n) (h2 : n < 2 ^ 32) :
    buddyLog2 n = Nat.log2 n := by
  unfold buddyLog2 clz32
  rw [bitlen32_eq 32 n h1 h2]
  have := Nat.log2_self_le (by omega : n ≠ 0)
  have hlt : Nat.log2 n < 32 := by
    rw [log2_lt_iff (by omega)]
    exact h2
  omega

/-!
Structural lemmas: each avail-list operation of the buddy allocator only
touches the `mem` and `ah` components of the heap descriptor.  `bscalars`
collects the descriptor fields none of them modifies.
-/

/-- Descriptor fields untouched by the avail-list operations: everything
except `mem` and `ah`. -/
def bscalars (h : BuddyHeap) : (ℕ × ℕ × ℕ × ℕ × ℕ) × (ℕ × ℕ × ℕ × ℕ) × (ℕ → ℕ) × FfitHeap :=
  ((h.mh, h.hs, h.e, h.eh, h.msize), (h.asize, h.ssize, h.esize, h.AMAX), h.sh, h.ffh)

/-- Frame of `block_insert`. -/
theorem blockInsert_frame (h : BuddyHeap) (l a : ℕ) :
    bscalars (blockInsert h l a) = bscalars h ∧ (blockInsert h l a).ah = h.ah := by
  unfold blockInsert
  split <;> exact ⟨rfl, rfl⟩

/-- Frame of `block_remove`. -/
theorem blockRemove_frame (h : BuddyHeap) (l a : ℕ) :
    bscalars (blockRemove h l a).2 = bscalars h ∧ (blockRemove h l a).2.ah = h.ah := by
  unfold blockRemove
  split
  · split
    · exact ⟨rfl, rfl⟩
    · exact ⟨rfl, rfl⟩
  · cases blockRemoveWalk h.mem a h.msize l with
    | none => exact ⟨rfl, rfl⟩
    | some tmp => exact ⟨rfl, rfl⟩

/-- Frame of `binsert`, with the effect on the avail heads. -/
theorem binsertB_frame (h : BuddyHeap) (a k : ℕ) :
    bscalars (binsertB h a k) = bscalars h ∧
    (binsertB h a k).ah k = a ∧
    ∀ j, j ≠ k → (binsertB h a k).ah j = h.ah j := by
  obtain ⟨hs, hah⟩ := blockInsert_frame h (h.ah k) a
  unfold binsertB
  refine ⟨hs, by simp, ?_⟩
  intro j hj
  simp [hj, hah]

/-- Frame of `bremove`. -/
theorem bremoveB_frame (h : BuddyHeap) (a k : ℕ) :
    bscalars (bremoveB h a k) = bscalars h ∧
    ∀ j, j ≠ k → (bremoveB h a k).ah j = h.ah j := by
  obtain ⟨hs, hah⟩ := blockRemove_frame h (h.ah k) a
  unfold bremoveB
  refine ⟨hs, ?_⟩
  intro j hj
  simp [hj, hah]

/-- Frame of `bsplit`: scalars survive and the split block becomes the head
of the next lower class. -/
theorem bsplit_frame (h : BuddyHeap) (a k : ℕ) :
    bscalars (bsplit h a k) = bscalars h ∧ (bsplit h a k).ah (k - 1) = a := by
  unfold bsplit
  obtain ⟨h1, _⟩ := bremoveB_frame h a k
  obtain ⟨h2, _, _⟩ := binsertB_frame (bremoveB h a k) (u32 (a + u32 (1 <<< (k - 1)))) (k - 1)
  obtain ⟨h3, h4, _⟩ := binsertB_frame
    (binsertB (bremoveB h a k) (u32 (a + u32 (1 <<< (k - 1)))) (k - 1)) a (k - 1)
  exact ⟨h3.trans (h2.trans h1), h4⟩

/-- Frame of the `bjoin` loop. -/
theorem bjoinAux_frame : ∀ (fuel : ℕ) (h : BuddyHeap) (b rc s : ℕ),
    bscalars (bjoinAux fuel h b rc s).1 = bscalars h := by
  intro fuel
  induction fuel with
  | zero => intro h b rc s; rfl
  | succ f ih =>
    intro h b rc s
    simp only [bjoinAux]
    split
    · split
      · rw [ih, (binsertB_frame _ _ _).1]
        split
        · rw [(bremoveB_frame _ _ _).1, (bremoveB_frame _ _ _).1]
        · rw [(bremoveB_frame _ _ _).1]
      · rfl
    · rfl

/-- Component extraction from a `bscalars` equation: main-heap size. -/
theorem bscalars_msize {h h' : BuddyHeap} (he : bscalars h' = bscalars h) :
    h'.msize = h.msize := by
  simpa using congrArg (fun t => t.1.2.2.2.2) he

/-- Component extraction from a `bscalars` equation: size-area bytes. -/
theorem bscalars_ssize {h h' : BuddyHeap} (he : bscalars h' = bscalars h) :
    h'.ssize = h.ssize := by
  simpa using congrArg (fun t => t.2.1.2.1) he

/-- Component extraction from a `bscalars` equation: emergency flag. -/
theorem bscalars_e {h h' : BuddyHeap} (he : bscalars h' = bscalars h) : h'.e = h.e := by
  simpa using congrArg (fun t => t.1.2.2.1) he

/-- Component extraction from a `bscalars` equation: host base address. -/
theorem bscalars_mh {h h' : BuddyHeap} (he : bscalars h' = bscalars h) : h'.mh = h.mh := by
  simpa using congrArg (fun t => t.1.1) he

/-- Component extraction from a `bscalars` equation: region size. -/
theorem bscalars_hs {h h' : BuddyHeap} (he : bscalars h' = bscalars h) : h'.hs = h.hs := by
  simpa using congrArg (fun t => t.1.2.1) he

/-- Component extraction from a `bscalars` equation: emergency address. -/
theorem bscalars_eh {h h' : BuddyHeap} (he : bscalars h' = bscalars h) : h'.eh = h.eh := by
  simpa using congrArg (fun t => t.1.2.2.2.1) he

/-- Component extraction from a `bscalars` equation: emergency size. -/
theorem bscalars_esize {h h' : BuddyHeap} (he : bscalars h' = bscalars h) :
    h'.esize = h.esize := by
  simpa using congrArg (fun t => t.2.1.2.2.1) he

/-- Component extraction from a `bscalars` equation: largest class. -/
theorem bscalars_AMAX {h h' : BuddyHeap} (he : bscalars h' = bscalars h) :
    h'.AMAX = h.AMAX := by
  simpa using congrArg (fun t => t.2.1.2.2.2) he

/-- Component extraction from a `bscalars` equation: size area. -/
theorem bscalars_sh {h h' : BuddyHeap} (he : bscalars h' = bscalars h) : h'.sh = h.sh := by
  simpa using congrArg (fun t => t.2.2.1) he

/-- A successful buddy `freeblock` leaves every descriptor scalar, the
embedded ffit state and the avail/regions aside, exactly erases the block's
size-area entry; and it certifies that the block was aligned with a nonzero
entry. -/
theorem freeblockB_ok_frame (h : BuddyHeap) (b : ℕ) (hrc : (freeblockB h b).1 = 0) :
    (b &&& 7 = 0 ∧ getsize h.sh (b >>> 3) ≠ 0) ∧
    bscalars (freeblockB h b).2 =
      bscalars { h with sh := erasesize h.sh (b >>> 3) } := by
  unfold freeblockB at hrc ⊢
  by_cases ha : b &&& 7 = 0
  · rw [if_pos ha] at hrc ⊢
    by_cases hs : getsize h.sh (b >>> 3) ≠ 0
    · rw [if_pos hs] at hrc ⊢
      refine ⟨⟨ha, hs⟩, ?_⟩
      have hj := bjoinAux_frame (h.AMAX + 1)
        { h with sh := erasesize h.sh (b >>> 3) } b 0 (getsize h.sh (b >>> 3))
      simp only []
      split
      · obtain ⟨hb1, _, _⟩ := binsertB_frame
          (bjoin { h with sh := erasesize h.sh (b >>> 3) } b (getsize h.sh (b >>> 3))).1
          b (getsize h.sh (b >>> 3))
        exact hb1.trans hj
      · exact hj
    · rw [if_neg hs] at hrc
      simp at hrc
  · rw [if_neg ha] at hrc
    simp at hrc

/-!
The 6-bit size-area codec, part one: erasing an entry really zeroes it.
-/

/-- Reading an entry right after erasing it yields 0, for any size area. -/
theorem getsize_erasesize (sh : ℕ → ℕ) (i : ℕ) : getsize (erasesize sh i) i = 0 := by
  simp only [getsize, erasesize]
  set y := 6 * i / 8 with hy
  set bb := 6 * i % 8 with hbb
  have hyne : y + 1 ≠ y := by omega
  have hyne2 : y ≠ y + 1 := by omega
  have hb : bb = 0 ∨ bb = 2 ∨ bb = 4 ∨ bb = 6 := by omega
  rcases hb with hb | hb | hb | hb <;> rw [hb]
  · rw [if_pos rfl, rd8_wr8_same, rd8_wr8_ne sh hyne]
    have h1 : rd8 sh y &&& 255 >>> 6 ≤ 255 >>> 6 := Nat.and_le_right
    have h2 := rd8_lt sh (y + 1)
    simp only [Nat.shiftLeft_eq, Nat.shiftRight_eq_div_pow] at h1 ⊢
    norm_num at h1 ⊢
    have h3 : rd8 sh (y + 1) / 256 = 0 := Nat.div_eq_of_lt h2
    rw [h3, Nat.or_zero]
    omega
  · rw [if_neg (by omega), rd8_wr8_ne _ hyne, rd8_wr8_same, rd8_wr8_ne _ hyne2, rd8_wr8_same]
    have hm : (rd8 sh y &&& 255 <<< (8 - 2)) % 2 ^ (8 - 2) = 0 :=
      land_mod_two_pow_zero (by simp [Nat.shiftLeft_eq, Nat.mul_mod_left])
    set A2 := rd8 sh y &&& 255 <<< (8 - 2) with hA2
    set B2 := rd8 sh (y + 1) &&& 255 >>> (2 - 2) with hB2
    have hq : B2 ≤ 255 := le_trans Nat.and_le_right (by decide)
    have hm2 : A2 % 64 = 0 := by
      rw [show (2 : ℕ) ^ (8 - 2) = 64 by norm_num] at hm
      exact hm
    have hP : ((A2 % 256) <<< 2) % 256 = 0 := by
      rw [Nat.shiftLeft_eq, show (2 : ℕ) ^ 2 = 4 by norm_num]
      omega
    rw [hP, Nat.zero_or, Nat.shiftRight_eq_div_pow, Nat.shiftRight_eq_div_pow,
      show (2 : ℕ) ^ (8 - 2) = 64 by norm_num, show (2 : ℕ) ^ 2 = 4 by norm_num]
    omega
  · rw [if_neg (by omega), rd8_wr8_ne _ hyne, rd8_wr8_same, rd8_wr8_ne _ hyne2, rd8_wr8_same]
    have hm : (rd8 sh y &&& 255 <<< (8 - 4)) % 2 ^ (8 - 4) = 0 :=
      land_mod_two_pow_zero (by simp [Nat.shiftLeft_eq, Nat.mul_mod_left])
    set A2 := rd8 sh y &&& 255 <<< (8 - 4) with hA2
    set B2 := rd8 sh (y + 1) &&& 255 >>> (4 - 2) with hB2
    have hq : B2 ≤ 63 := le_trans Nat.and_le_right (by decide)
    have hm2 : A2 % 16 = 0 := by
      rw [show (2 : ℕ) ^ (8 - 4) = 16 by norm_num] at hm
      exact hm
    have hP : ((A2 % 256) <<< 4) % 256 = 0 := by
      rw [Nat.shiftLeft_eq, show (2 : ℕ) ^ 4 = 16 by norm_num]
      omega
    rw [hP, Nat.zero_or, Nat.shiftRight_eq_div_pow, Nat.shiftRight_eq_div_pow,
      show (2 : ℕ) ^ (8 - 4) = 16 by norm_num, show (2 : ℕ) ^ 2 = 4 by norm_num]
    omega
  · rw [if_neg (by omega), rd8_wr8_ne _ hyne, rd8_wr8_same, rd8_wr8_ne _ hyne2, rd8_wr8_same]
    have hm : (rd8 sh y &&& 255 <<< (8 - 6)) % 2 ^ (8 - 6) = 0 :=
      land_mod_two_pow_zero (by simp [Nat.shiftLeft_eq, Nat.mul_mod_left])
    set A2 := rd8 sh y &&& 255 <<< (8 - 6) with hA2
    set B2 := rd8 sh (y + 1) &&& 255 >>> (6 - 2) with hB2
    have hq : B2 ≤ 15 := le_trans Nat.and_le_right (by decide)
    have hm2 : A2 % 4 = 0 := by
      rw [show (2 : ℕ) ^ (8 - 6) = 4 by norm_num] at hm
      exact hm
    have hP : ((A2 % 256) <<< 6) % 256 = 0 := by
      rw [Nat.shiftLeft_eq, show (2 : ℕ) ^ 6 = 64 by norm_num]
      omega
    rw [hP, Nat.zero_or, Nat.shiftRight_eq_div_pow, Nat.shiftRight_eq_div_pow,
      show (2 : ℕ) ^ (8 - 6) = 4 by norm_num]
    omega

theorem getsize_putsize (sh : ℕ → ℕ) (i v : ℕ) (hv : v < 64)
    (h0 : getsize sh i = 0) : getsize (putsize sh i v) i = v := by
  simp only [getsize, putsize] at h0 ⊢
  set y := 6 * i / 8 with hy
  set bb := 6 * i % 8 with hbb
  have hyne : y + 1 ≠ y := by omega
  have hyne2 : y ≠ y + 1 := by omega
  have hb : bb = 0 ∨ bb = 2 ∨ bb = 4 ∨ bb = 6 := by omega
  rcases hb with hb | hb | hb | hb <;>
    rw [hb] at h0 ⊢ <;>
    rw [rd8_wr8_ne _ hyne, rd8_wr8_same, rd8_wr8_ne _ hyne2, rd8_wr8_same] <;>
    set A := rd8 sh y with hA <;> set B := rd8 sh (y + 1) with hB
  all_goals have hA2 : A < 256 := by rw [hA]; exact rd8_lt sh y
  all_goals have hB2 : B < 256 := by rw [hB]; exact rd8_lt sh (y + 1)
  all_goals simp only [Nat.shiftLeft_eq, Nat.shiftRight_eq_div_pow] at h0 ⊢
  all_goals norm_num at h0 ⊢
  · rw [Nat.mod_eq_of_lt hA2, Nat.div_eq_of_lt hB2, Nat.or_zero] at h0
    have hor : A ||| v * 4 = v * 4 + A := by
      rw [Nat.lor_comm]
      exact lor_disj (k := 2) (by omega) (by omega)
    rw [hor]
    omega
  · have hx : (A * 4 % 256) % 4 = 0 := by omega
    have hy4 : B / 64 < 4 := by omega
    rw [lor_disj (k := 2) hx hy4] at h0
    have hA64 : A % 64 = 0 := by omega
    have e1 : A ||| v = A + v := lor_disj (k := 6) (by omega) (by omega)
    have e2 : B ||| v * 4 * 64 = v * 4 * 64 + B := by
      rw [Nat.lor_comm]
      exact lor_disj (k := 8) (by omega) (by omega)
    rw [e1, e2]
    have e3 : (A + v) * 4 % 256 = v * 4 := by omega
    have e4 : (v * 4 * 64 + B) % 256 / 64 = B / 64 := by omega
    rw [e3, e4]
    rw [lor_disj (k := 2) (by omega) (by omega)]
    omega
  · have hx : (A * 16 % 256) % 16 = 0 := by omega
    have hy4 : B / 16 < 16 := by omega
    rw [lor_disj (k := 4) hx hy4] at h0
    have hA16 : A % 16 = 0 := by omega
    have hB64 : B < 64 := by omega
    have e0 : v * 4 / 16 = v / 4 := by omega
    rw [e0]
    have e1 : A ||| v / 4 = A + v / 4 := lor_disj (k := 4) (by omega) (by omega)
    have e2 : B ||| v * 4 * 16 = v * 4 * 16 + B := by
      rw [Nat.lor_comm]
      exact lor_disj (k := 6) (by omega) (by omega)
    rw [e1, e2]
    have e3 : (A + v / 4) * 16 % 256 = v / 4 * 16 := by omega
    have e4 : (v * 4 * 16 + B) % 256 / 16 = v % 4 * 4 + B / 16 := by omega
    rw [e3, e4]
    rw [lor_disj (k := 4) (by omega) (by omega)]
    omega
  · have hx : (A * 64 % 256) % 64 = 0 := by omega
    have hy4 : B / 4 < 64 := by omega
    rw [lor_disj (k := 6) hx hy4] at h0
    have hA4 : A % 4 = 0 := by omega
    have hB16 : B < 16 := by omega
    have e0 : v * 4 / 64 = v / 16 := by omega
    rw [e0]
    have e1 : A ||| v / 16 = A + v / 16 := lor_disj (k := 2) (by omega) (by omega)
    have e2 : B ||| v * 4 * 4 = v * 4 * 4 + B := by
      rw [Nat.lor_comm]
      exact lor_disj (k := 4) (by omega) (by omega)
    rw [e1, e2]
    have e3 : (A + v / 16) * 64 % 256 = v / 16 * 64 := by omega
    have e4 : (v * 4 * 4 + B) % 256 / 4 = v % 16 * 4 + B / 4 := by omega
    rw [e3, e4]
    rw [lor_disj (k := 6) (by omega) (by omega)]
    omega

theorem putsize_other_bits (sh : ℕ → ℕ) (i v : ℕ) (hv : v < 64) :
    ∀ q, q < 6 * i ∨ 6 * i + 6 ≤ q → streamBit (putsize sh i v) q = streamBit sh q := by
  intro q hq
  unfold streamBit
  simp only [putsize]
  set y := 6 * i / 8 with hy
  set bb := 6 * i % 8 with hbb
  have hyne : y + 1 ≠ y := by omega
  have hyne2 : y ≠ y + 1 := by omega
  by_cases hqy : q / 8 = y
  · rw [hqy, rd8_wr8_ne _ hyne2, rd8_wr8_same]
    set t := 7 - q % 8 with ht
    have ht8 : t < 8 := by omega
    rw [show (256 : ℕ) = 2 ^ 8 by norm_num, Nat.testBit_mod_two_pow, Nat.testBit_or]
    have hq8 : q % 8 < bb ∨ bb + 6 ≤ q % 8 := by omega
    have hM : Nat.testBit ((v <<< 2) >>> bb) t = false := by
      rcases hq8 with hcase | hcase
      · apply Nat.testBit_lt_two_pow
        have hbb8 : bb < 8 := by omega
        have hd : (v <<< 2) >>> bb = v * 4 / 2 ^ bb := by
          rw [Nat.shiftLeft_eq, Nat.shiftRight_eq_div_pow]
        rw [hd]
        have h2 : v * 4 / 2 ^ bb < 2 ^ (8 - bb) := by
          apply Nat.div_lt_of_lt_mul
          calc v * 4 < 2 ^ 8 := by norm_num; omega
            _ = 2 ^ bb * 2 ^ (8 - bb) := by
                rw [← pow_add]
                congr 1
                omega
        calc v * 4 / 2 ^ bb < 2 ^ (8 - bb) := h2
          _ ≤ 2 ^ t := Nat.pow_le_pow_right (by norm_num) (by omega)
      · have hbb0 : bb = 0 := by omega
        apply testBit_false_of_mod (k := 2)
        · rw [hbb0, Nat.shiftRight_zero, Nat.shiftLeft_eq]
          norm_num
        · omega
    rw [hM]
    simp [ht8]
  · by_cases hqy1 : q / 8 = y + 1
    · rw [hqy1, rd8_wr8_same, rd8_wr8_ne _ hyne]
      set t := 7 - q % 8 with ht
      have ht8 : t < 8 := by omega
      rw [show (256 : ℕ) = 2 ^ 8 by norm_num, Nat.testBit_mod_two_pow, Nat.testBit_or]
      have hM : Nat.testBit ((v <<< 2) <<< (8 - bb)) t = false := by
        apply testBit_false_of_mod (k := 10 - bb)
        · rw [Nat.shiftLeft_eq, Nat.shiftLeft_eq]
          have he : v * 2 ^ 2 * 2 ^ (8 - bb) = v * 2 ^ (10 - bb) := by
            rw [mul_assoc, ← pow_add]
            congr 2
            omega
          rw [he]
          exact Nat.mul_mod_left v _
        · omega
      rw [hM]
      simp [ht8]
    · rw [rd8_wr8_ne _ hqy1, rd8_wr8_ne _ hqy]

theorem erasesize_other_bits (sh : ℕ → ℕ) (i : ℕ) :
    ∀ q, q < 6 * i ∨ 6 * i + 6 ≤ q → streamBit (erasesize sh i) q = streamBit sh q := by
  intro q hq
  unfold streamBit
  simp only [erasesize]
  set y := 6 * i / 8 with hy
  set bb := 6 * i % 8 with hbb
  have hyne : y + 1 ≠ y := by omega
  have hyne2 : y ≠ y + 1 := by omega
  by_cases hbb0 : bb = 0
  · rw [if_pos hbb0]
    by_cases hqy : q / 8 = y
    · rw [hqy, rd8_wr8_same]
      set t := 7 - q % 8 with ht
      have ht8 : t < 8 := by omega
      rw [show (256 : ℕ) = 2 ^ 8 by norm_num, Nat.testBit_mod_two_pow, Nat.testBit_and]
      have hM : Nat.testBit (255 >>> 6) t = true := by
        have ht1 : t ≤ 1 := by omega
        interval_cases t <;> decide
      rw [hM]
      simp [ht8]
    · rw [rd8_wr8_ne _ hqy]
  · rw [if_neg hbb0]
    by_cases hqy : q / 8 = y
    · rw [hqy, rd8_wr8_ne _ hyne2, rd8_wr8_same]
      set t := 7 - q % 8 with ht
      have ht8 : t < 8 := by omega
      rw [show (256 : ℕ) = 2 ^ 8 by norm_num, Nat.testBit_mod_two_pow, Nat.testBit_and]
      have hM : Nat.testBit (255 <<< (8 - bb)) t = true := by
        have hge : 8 - bb ≤ t := by omega
        rw [Nat.testBit_shiftLeft, show (255 : ℕ) = 2 ^ 8 - 1 by norm_num,
          Nat.testBit_two_pow_sub_one]
        simp only [ge_iff_le, Bool.and_eq_true, decide_eq_true_eq]
        exact ⟨hge, by omega⟩
      rw [hM]
      simp [ht8]
    · by_cases hqy1 : q / 8 = y + 1
      · rw [hqy1, rd8_wr8_same, rd8_wr8_ne _ hyne]
        set t := 7 - q % 8 with ht
        have ht8 : t < 8 := by omega
        rw [show (256 : ℕ) = 2 ^ 8 by norm_num, Nat.testBit_mod_two_pow, Nat.testBit_and]
        have hM : Nat.testBit (255 >>> (bb - 2)) t = true := by
          rw [Nat.testBit_shiftRight, show (255 : ℕ) = 2 ^ 8 - 1 by norm_num,
            Nat.testBit_two_pow_sub_one]
          exact decide_eq_true (by omega)
        rw [hM]
        simp [ht8]
      · rw [rd8_wr8_ne _ hqy1, rd8_wr8_ne _ hqy]

/-- C7: size-area codec round-trip: writing a value v < 64 into a currently
empty 6-bit slot i reads back as v, erasesize resets the slot to 0, and
neither putsize nor erasesize changes any bit of the size stream outside
the slot's positions [6i, 6i+6). -/
theorem size_codec_roundtrip (sh : ℕ → ℕ) (i v : ℕ) (hv : v < 64)
    (h0 : getsize sh i = 0) :
    getsize (putsize sh i v) i = v ∧
    getsize (erasesize sh i) i = 0 ∧
    (∀ q, q < 6 * i ∨ 6 * i + 6 ≤ q → streamBit (putsize sh i v) q = streamBit sh q) ∧
    (∀ q, q < 6 * i ∨ 6 * i + 6 ≤ q → streamBit (erasesize sh i) q = streamBit sh q) :=
  ⟨getsize_putsize sh i v hv h0, getsize_erasesize sh i,
   putsize_other_bits sh i v hv, erasesize_other_bits sh i⟩

/-- Witness for size_codec_roundtrip: slot 3 of a size area whose slot 2
already holds 63; writing 37 round-trips, erasing yields 0, and the
neighbouring bits 17 (in slot 2) and 24 (in slot 4) are untouched. -/
theorem size_codec_roundtrip_witness :
    (37 : ℕ) < 64 ∧ getsize (putsize (fun _ => 0) 2 63) 3 = 0 ∧
    getsize (putsize (putsize (fun _ => 0) 2 63) 3 37) 3 = 37 ∧
    getsize (erasesize (putsize (fun _ => 0) 2 63) 3) 3 = 0 ∧
    streamBit (putsize (putsize (fun _ => 0) 2 63) 3 37) 17
      = streamBit (putsize (fun _ => 0) 2 63) 17 ∧
    streamBit (erasesize (putsize (fun _ => 0) 2 63) 3) 24
      = streamBit (putsize (fun _ => 0) 2 63) 24 := by
  refine ⟨by decide, by decide, ?_, ?_, ?_, ?_⟩
  · exact (size_codec_roundtrip (putsize (fun _ => 0) 2 63) 3 37 (by decide) (by decide)).1
  · exact (size_codec_roundtrip (putsize (fun _ => 0) 2 63) 3 37 (by decide) (by decide)).2.1
  · exact (size_codec_roundtrip (putsize (fun _ => 0) 2 63) 3 37 (by decide)
      (by decide)).2.2.1 17 (Or.inl (by decide))
  · exact (size_codec_roundtrip (putsize (fun _ => 0) 2 63) 3 37 (by decide)
      (by decide)).2.2.2 24 (Or.inr (by decide))

/-- The buddy `freeblock` result code is 0 or 4. -/
theorem freeblockB_rc (h : BuddyHeap) (b : ℕ) :
    (freeblockB h b).1 = 0 ∨ (freeblockB h b).1 = 4 := by
  unfold freeblockB
  split
  · simp only []
    split
    · split
      · exact Or.inl rfl
      · exact Or.inl rfl
    · exact Or.inr rfl
  · exact Or.inr rfl

/-!
Claim C10 — with the emergency flag off, a free of a secondary-range
pointer is a no-op returning NOT-FOUND.
-/

/-- C10: when `e = 0`, `buddy_free_block` applied to any pointer in the
secondary range `[eh, mh + msize + esize)` returns 4 (NOT-FOUND) and leaves
the whole heap state (descriptor, size area, avail table, region bytes and
embedded ffit state) unchanged. -/
theorem buddy_free_secondary_unchanged (h : BuddyHeap) (ptr : ℕ)
    (he : h.e = 0) (hlo : h.eh ≤ ptr)
    (hmh : h.mh ≤ ptr) (hhi : ptr < h.mh + h.msize + h.esize) :
    buddyFree h ptr = (4, h) := by
  unfold buddyFree
  rw [if_neg (by omega), if_pos (by omega), if_neg (by omega)]

/-- Witness for C10 at a concrete secondary-range pointer of the fresh
64-byte arena (eh = 1056, region end 1061). -/
theorem buddy_free_secondary_unchanged_witness :
    buddyFree bhFresh 1058 = (4, bhFresh) :=
  buddy_free_secondary_unchanged bhFresh 1058 (by decide) (by decide) (by decide) (by decide)

/-!
Claim C2 — double free.  The buddy arena always reports 4 on the second
free of a main-heap pointer, because a successful free erases the block's
size-area entry and the next free finds it zero.  The first-fit arena
reports 4 when the first free did not merge with the previous neighbour;
when it did merge, the stale header at `ptr-4` still carries tag 1 and the
second free takes the merge path, fails to find a predecessor in the avail
list, and returns -1 (INTERNAL) instead of 4.
-/

/-- Main-heap branch of `buddy_free_block`, written as a plain conditional. -/
theorem buddyFree_main_branch (g : BuddyHeap) (ptr : ℕ)
    (hg1 : ¬ (ptr < g.mh ∨ ptr ≥ g.mh + g.msize + g.esize)) (hg2 : ¬ ptr ≥ g.eh) :
    buddyFree g ptr =
      if (freeblockB g (u32 (ptr - g.mh))).1 &&& 4 = 4
      then ((4 : Int), (freeblockB g (u32 (ptr - g.mh))).2)
      else ((0 : Int), (freeblockB g (u32 (ptr - g.mh))).2) := by
  unfold buddyFree
  rw [if_neg hg1, if_neg hg2]

/-- C2 (amended): after a `free(p)` that returned OK, an immediately
repeated `free(p)` returns 4 — unconditionally for `buddy_free_block` on
main-heap pointers (any state), and for `ffit_free_block` when the first
free did not coalesce with the previous neighbour (concrete arena shown:
freeing block 0, which has no previous neighbour).  When the first ffit
free did coalesce with its previous neighbour the second free instead
returns -1; see the counterexample. -/
theorem double_free_returns_notfound_amended :
    (∀ (h : BuddyHeap) (ptr : ℕ),
      h.mh ≤ ptr → ptr < h.mh + h.msize + h.esize → ptr < h.eh →
      (buddyFree h ptr).1 = 0 →
      (buddyFree (buddyFree h ptr).2 ptr).1 = 4) ∧
    ((ffitFree ffTwo 1004).1 = 0 ∧ (ffitFree (ffitFree ffTwo 1004).2 1004).1 = 4) := by
  refine ⟨?_, by decide, by decide⟩
  intro h ptr hlo hhi heh hok
  have hguard : ¬ (ptr < h.mh ∨ ptr ≥ h.mh + h.msize + h.esize) := by omega
  rw [buddyFree_main_branch h ptr hguard (by omega)] at hok
  have hrc0 : (freeblockB h (u32 (ptr - h.mh))).1 = 0 := by
    rcases freeblockB_rc h (u32 (ptr - h.mh)) with h0 | h4
    · exact h0
    · rw [h4] at hok
      simp at hok
  have hstate : (buddyFree h ptr).2 = (freeblockB h (u32 (ptr - h.mh))).2 := by
    rw [buddyFree_main_branch h ptr hguard (by omega), hrc0]
    simp
  obtain ⟨⟨halign, hsz⟩, hframe⟩ := freeblockB_ok_frame h (u32 (ptr - h.mh)) hrc0
  have hmh2 : (freeblockB h (u32 (ptr - h.mh))).2.mh = h.mh := by
    have t := bscalars_mh hframe
    exact t
  have hmsize2 : (freeblockB h (u32 (ptr - h.mh))).2.msize = h.msize := by
    have t := bscalars_msize hframe
    exact t
  have hesize2 : (freeblockB h (u32 (ptr - h.mh))).2.esize = h.esize := by
    have t := bscalars_esize hframe
    exact t
  have heh2 : (freeblockB h (u32 (ptr - h.mh))).2.eh = h.eh := by
    have t := bscalars_eh hframe
    exact t
  have hsh2 : (freeblockB h (u32 (ptr - h.mh))).2.sh =
      erasesize h.sh (u32 (ptr - h.mh) >>> 3) := by
    have t := bscalars_sh hframe
    exact t
  set h2 := (freeblockB h (u32 (ptr - h.mh))).2 with hh2
  rw [hstate]
  rw [buddyFree_main_branch h2 ptr
    (by rw [hmh2, hmsize2, hesize2]; exact hguard) (by rw [heh2]; omega)]
  have hb2 : u32 (ptr - h2.mh) = u32 (ptr - h.mh) := by
    rw [hmh2]
  rw [hb2]
  have hrc4 : (freeblockB h2 (u32 (ptr - h.mh))).1 = 4 := by
    unfold freeblockB
    rw [if_pos halign]
    simp only []
    rw [hsh2, getsize_erasesize]
    simp
  rw [hrc4, if_pos (by decide : (4 : ℕ) &&& 4 = 4)]

/-- Witness for the amended C2: on the 64-byte buddy arena holding two
allocated blocks, freeing pointer 1024 succeeds and the repeated free
returns 4. -/
theorem double_free_returns_notfound_witness :
    (buddyFree (buddyFree bhTwo 1024).2 1024).1 = 4 :=
  double_free_returns_notfound_amended.1 bhTwo 1024 (by decide) (by decide) (by decide)
    (by decide)

/-- C2 as stated is false for the first-fit arena: in the 96-byte arena
where block 0 is already free, freeing pointer 1036 succeeds and coalesces
with the previous neighbour (the resulting free block spans all 96 bytes),
and the immediately repeated free of the same pointer returns -1
(INTERNAL), not the claimed 4. -/
theorem double_free_after_coalesce_counterexample :
    (ffitFree ffOneFree 1036).1 = 0 ∧
    rd32 (ffitFree ffOneFree 1036).2.mem 0 >>> 1 = 96 ∧
    (ffitFree (ffitFree ffOneFree 1036).2 1036).1 = -1 ∧
    ((-1 : Int) ≠ 4) := by
  exact ⟨by decide, by decide, by decide, by decide⟩

/-!
Claim C9 — the size-area byte count: the code computes the floor, not the
ceiling, of `((msize/8 + 1) * 6) / 8`, and the two differ for every
power-of-two `msize`.
-/

/-- C9 as stated is false: on the 2 MiB arena (`msize = 2^20`), `buddy_init`
computes `ssize = 98304` while the claimed ceiling is 98305. -/
theorem ssize_ceil_counterexample :
    (buddyInit bh2M).1 = 0 ∧
    (buddyInit bh2M).2.msize = 1048576 ∧
    (buddyInit bh2M).2.ssize = 98304 ∧
    ((1048576 / 8 + 1) * 6 + 8 - 1) / 8 = 98305 ∧
    (buddyInit bh2M).2.ssize ≠ ((1048576 / 8 + 1) * 6 + 8 - 1) / 8 := by
  exact ⟨by decide, by decide, by decide, by decide, by decide⟩

/-- C9 (amended): after a successful `buddy_init`, the size-area byte count
is the truncating (floor) division `((msize/8 + 1) * 6) / 8`; for every
power-of-two `msize = 2^k` (3 ≤ k ≤ 31) this differs from the ceiling the
claim states. -/
theorem ssize_formula_amended (h : BuddyHeap)
    (hmh : h.mh ≠ 0) (hhs : h.hs ≠ 0) (hbound : h.hs < 2 ^ 32) :
    (buddyInit h).2.msize = h.hs / 2 ∧
    (buddyInit h).2.ssize = ((buddyInit h).2.msize / 8 + 1) * 6 / 8 ∧
    (∀ k, 3 ≤ k → k ≤ 31 → h.hs / 2 = 2 ^ k →
      (buddyInit h).2.ssize ≠ (((buddyInit h).2.msize / 8 + 1) * 6 + 8 - 1) / 8) := by
  have hms : h.hs / 2 < 2 ^ 31 := by omega
  have hu1 : u32 (h.hs / 2) = h.hs / 2 := by unfold u32; omega
  have hu2 : u32 (h.hs / 2 / 8 + 1) = h.hs / 2 / 8 + 1 := by unfold u32; omega
  have hu3 : u32 ((h.hs / 2 / 8 + 1) * 6) = (h.hs / 2 / 8 + 1) * 6 := by unfold u32; omega
  have hkey : (buddyInit h).2.msize = h.hs / 2 ∧
      (buddyInit h).2.ssize = (h.hs / 2 / 8 + 1) * 6 / 8 := by
    unfold buddyInit
    rw [if_pos ⟨hmh, hhs⟩]
    have hfr := (binsertB_frame
      { h with
        msize := u32 (h.hs / 2), eh := h.mh + u32 (h.hs / 2),
        AMAX := buddyLog2 (u32 (h.hs / 2)),
        asize := u32 ((buddyLog2 (u32 (h.hs / 2)) + 1) * 4),
        ssize := u32 (u32 (u32 (h.hs / 2) / 8 + 1) * 6) / 8,
        esize := (u32 (h.hs / 2) + 4294967296 -
          u32 (u32 ((buddyLog2 (u32 (h.hs / 2)) + 1) * 4) +
               u32 (u32 (u32 (h.hs / 2) / 8 + 1) * 6) / 8)) % 4294967296,
        mem := memsetB h.mem 0 255 (u32 (h.hs / 2)),
        sh := memsetB h.sh 0 0 (u32 (u32 (u32 (h.hs / 2) / 8 + 1) * 6) / 8),
        ah := fun i => if i < buddyLog2 (u32 (h.hs / 2)) + 1 then NOBLOCK else h.ah i }
      0 (buddyLog2 (u32 (h.hs / 2)))).1
    have hm := bscalars_msize hfr
    have hss := bscalars_ssize hfr
    simp only []
    split
    · constructor
      · calc _ = u32 (h.hs / 2) := hm
          _ = h.hs / 2 := hu1
      · calc _ = u32 (u32 (u32 (h.hs / 2) / 8 + 1) * 6) / 8 := hss
          _ = (h.hs / 2 / 8 + 1) * 6 / 8 := by rw [hu1, hu2, hu3]
    · constructor
      · calc _ = u32 (h.hs / 2) := hm
          _ = h.hs / 2 := hu1
      · calc _ = u32 (u32 (u32 (h.hs / 2) / 8 + 1) * 6) / 8 := hss
          _ = (h.hs / 2 / 8 + 1) * 6 / 8 := by rw [hu1, hu2, hu3]
  refine ⟨hkey.1, by rw [hkey.1, hkey.2], ?_⟩
  intro k h3 h31 hpow
  rw [hkey.1, hkey.2, hpow]
  have h8 : (2 : ℕ) ^ k / 8 = 2 ^ (k - 3) := by
    rw [show (8 : ℕ) = 2 ^ 3 from rfl, Nat.pow_div h3 (by norm_num)]
  rw [h8]
  have hmod : 2 ^ (k - 3) % 8 = 0 ∨ 2 ^ (k - 3) % 8 = 1 ∨ 2 ^ (k - 3) % 8 = 2 ∨
      2 ^ (k - 3) % 8 = 4 := by
    rcases Nat.lt_or_ge (k - 3) 3 with hlt | hge
    · interval_cases hk : (k - 3) <;> simp
    · left
      have : (8 : ℕ) ∣ 2 ^ (k - 3) := by
        rw [show (8 : ℕ) = 2 ^ 3 from rfl]
        exact pow_dvd_pow 2 hge
      omega
  omega

/-- Witness for the amended C9 on the 2 MiB arena. -/
theorem ssize_formula_amended_witness :
    (buddyInit bh2M).2.msize = bh2M.hs / 2 ∧
    (buddyInit bh2M).2.ssize = ((buddyInit bh2M).2.msize / 8 + 1) * 6 / 8 :=
  ⟨(ssize_formula_amended bh2M (by decide) (by decide) (by decide)).1,
   (ssize_formula_amended bh2M (by decide) (by decide) (by decide)).2.1⟩

/-!
Claim C5 — which sizes `buddy_get_block` serves.  The code's guard is
`nextpow2(sz) < msize`, so every request above `msize/2` is rejected, not
only those at or above `msize`.
-/

/-- C5 as stated is false: on the fresh 64-byte arena (`msize = 32`, no
emergency heap), `get(17)` returns null although `0 < 17 < msize`. -/
theorem buddy_get_midrange_null_counterexample :
    bhFresh.msize = 32 ∧ bhFresh.e = 0 ∧ (0 : ℕ) < 17 ∧ (17 : ℕ) < 32 ∧
    (buddyGet bhFresh 17).1 = 0 := by
  exact ⟨by decide, by decide, by decide, by decide, by decide⟩

/-- C5 (amended): `buddy_get_block` rejects `sz = 0` and every `sz` whose
rounded size `nextpow2(sz)` reaches `msize` — that is, every `sz` above
`msize/2` — and on a freshly initialized arena with `e = 0` it serves
exactly the sizes `0 < sz ≤ msize/2`.  Shown on the fresh 64-byte arena
(`msize = 32`): `get(0)` is null, `get(sz)` is non-null for `0 < sz ≤ 16`,
and `get(sz)` is null for every `16 < sz ≤ 2^31`. -/
theorem buddy_get_size_bounds_amended :
    (buddyGet bhFresh 0).1 = 0 ∧
    (∀ sz, sz ≤ 16 → 0 < sz → (buddyGet bhFresh sz).1 ≠ 0) ∧
    (∀ sz, 16 < sz → sz ≤ 2 ^ 31 → (buddyGet bhFresh sz).1 = 0) := by
  refine ⟨by decide, by decide, ?_⟩
  intro sz h16 h31
  have hu : u32 sz = sz := by
    unfold u32
    omega
  have hnp : 32 ≤ np2 sz := by
    rw [np2_eq (by omega) h31]
    have h4 : 4 ≤ Nat.log2 (sz - 1) := by
      refine (Nat.le_log2 (by omega)).mpr ?_
      norm_num
      omega
    calc (32 : ℕ) = 2 ^ 5 := by norm_num
      _ ≤ 2 ^ (Nat.log2 (sz - 1) + 1) := Nat.pow_le_pow_right (by norm_num) (by omega)
  unfold buddyGet
  rw [if_pos (by omega : sz > 0)]
  simp only []
  rw [if_neg (show ¬ sz < 8 by omega), hu]
  rw [if_neg (show ¬ np2 sz < bhFresh.msize by rw [show bhFresh.msize = 32 by decide]; omega)]

/-- Witness for the amended C5: a served size and a rejected mid-range
size on the fresh 64-byte arena. -/
theorem buddy_get_size_bounds_witness :
    (buddyGet bhFresh 5).1 ≠ 0 ∧ (buddyGet bhFresh 1000).1 = 0 :=
  ⟨buddy_get_size_bounds_amended.2.1 5 (by decide) (by decide),
   buddy_get_size_bounds_amended.2.2 1000 (by decide) (by norm_num)⟩

/-!
Claim C6 — the `extend` special cases: null pointer behaves as `get`, size
zero behaves as `free` (returning null and the free's code), and a request
mapping to the block's current effective size returns the pointer unchanged
with no change to the heap.
-/

/-- C6: the three special cases for both arenas.  The equal-size case is
stated for a pointer of the respective arena whose block is live and whose
current size equals the effective request size (`max(MINSIZE, nextpow2 sz)`
for buddy, `max(32, sz+5)` for ffit). -/
theorem extend_special_cases :
    (∀ (h : BuddyHeap) (sz : ℕ),
      buddyExtend h 0 sz = ((buddyGet h sz).1, 0, (buddyGet h sz).2)) ∧
    (∀ (h : FfitHeap) (sz : ℕ),
      ffitExtend h 0 sz = ((ffitGet h sz).1, 0, (ffitGet h sz).2)) ∧
    (∀ (h : BuddyHeap) (ptr : ℕ), ptr ≠ 0 →
      buddyExtend h ptr 0 = (0, (buddyFree h ptr).1, (buddyFree h ptr).2)) ∧
    (∀ (h : FfitHeap) (ptr : ℕ), ptr ≠ 0 →
      ffitExtend h ptr 0 = (0, (ffitFree h ptr).1, (ffitFree h ptr).2)) ∧
    (∀ (h : BuddyHeap) (ptr sz : ℕ), ptr ≠ 0 → 0 < sz →
      ¬ ptr ≥ h.mh + h.hs → ¬ ptr ≥ h.eh →
      h.mh ≤ ptr → ptr - h.mh < 4294967295 →
      (if sz < 8 then 8 else np2 (u32 sz)) < h.msize →
      u32 (ptr - h.mh) &&& 7 = 0 →
      getsize h.sh (u32 (ptr - h.mh) >>> 3) ≠ 0 →
      u32 (1 <<< getsize h.sh (u32 (ptr - h.mh) >>> 3)) =
        (if sz < 8 then 8 else np2 (u32 sz)) →
      buddyExtend h ptr sz = (ptr, 0, h)) ∧
    (∀ (h : FfitHeap) (ptr sz : ℕ), ptr ≠ 0 → 0 < sz →
      ¬ ptr ≥ h.mh + h.hs →
      (if u32 (u32 sz + 5) < 32 then 32 else u32 (u32 sz + 5)) < h.hs →
      rd32 h.mem (ptr - 4 - h.mh) >>> 1 =
        (if u32 (u32 sz + 5) < 32 then 32 else u32 (u32 sz + 5)) →
      ffitExtend h ptr sz = (ptr, 0, h)) := by
  refine ⟨?_, ?_, ?_, ?_, ?_, ?_⟩
  · intro h sz
    unfold buddyExtend
    rw [if_pos rfl]
  · intro h sz
    unfold ffitExtend
    rw [if_pos rfl]
  · intro h ptr hp
    unfold buddyExtend
    rw [if_neg hp, if_pos rfl]
  · intro h ptr hp
    unfold ffitExtend
    rw [if_neg hp, if_pos rfl]
  · intro h ptr sz hp hsz hhs heh hmh hnb hmsz halign hcs hcsz
    have hext : extendblockB h (u32 (ptr - h.mh)) (if sz < 8 then 8 else np2 (u32 sz)) =
        (u32 (ptr - h.mh), 0, h) := by
      unfold extendblockB
      rw [if_neg (by simp [halign])]
      simp only []
      rw [if_neg hcs, if_pos hcsz]
    unfold buddyExtend
    rw [if_neg hp, if_neg (by omega), if_neg hhs, if_neg heh]
    simp only []
    rw [if_pos hmsz, hext]
    simp only []
    rw [if_pos (show u32 (ptr - h.mh) ≠ NOBLOCK by unfold u32 NOBLOCK; omega)]
    have hb : h.mh + u32 (ptr - h.mh) = ptr := by
      unfold u32
      omega
    rw [hb]
    norm_num
  · intro h ptr sz hp hsz hhs hlt hos
    unfold ffitExtend
    rw [if_neg hp, if_neg (by omega), if_neg hhs]
    simp only []
    rw [if_pos hlt, if_pos hos]

/-- Witness for C6 at concrete arenas: null-as-get and size-0-as-free on
the fresh 64-byte buddy arena, the equal-size case on the buddy arena with
a class-3 block at pointer 1024, and the ffit cases on the 96-byte arena
with the 32-byte block at pointer 1004. -/
theorem extend_special_cases_witness :
    buddyExtend bhFresh 0 5 = ((buddyGet bhFresh 5).1, 0, (buddyGet bhFresh 5).2) ∧
    ffitExtend ffFresh96 0 27 = ((ffitGet ffFresh96 27).1, 0, (ffitGet ffFresh96 27).2) ∧
    buddyExtend bhTwo 1024 0 = (0, (buddyFree bhTwo 1024).1, (buddyFree bhTwo 1024).2) ∧
    ffitExtend ffTwo 1004 0 = (0, (ffitFree ffTwo 1004).1, (ffitFree ffTwo 1004).2) ∧
    buddyExtend bhTwo 1024 8 = (1024, 0, bhTwo) ∧
    ffitExtend ffTwo 1004 27 = (1004, 0, ffTwo) :=
  ⟨extend_special_cases.1 bhFresh 5,
   extend_special_cases.2.1 ffFresh96 27,
   extend_special_cases.2.2.1 bhTwo 1024 (by decide),
   extend_special_cases.2.2.2.1 ffTwo 1004 (by decide),
   extend_special_cases.2.2.2.2.1 bhTwo 1024 8 (by decide) (by decide) (by decide)
     (by decide) (by decide) (by decide) (by decide) (by decide) (by decide) (by decide),
   extend_special_cases.2.2.2.2.2 ffTwo 1004 27 (by decide) (by decide) (by decide)
     (by decide) (by decide)⟩

/-!
Claim C3 — out-of-region pointers.  The buddy free conforms (returns 4),
but `ffit_free_block` initialises its result code to 0 and returns 0, not
4, when the range check fails: the code contradicts its own header
documentation ("Fails if the address is unknown (4)").
-/

/-- C3 evaluation: buddy frees outside `[mh, mh+msize+esize)` return 4 as
claimed, but ffit frees with `ptr-4` below `mh` (pointers 1000 and 1003)
or `ptr+5` not below `mh+hs` (pointers 1091 and 5000) return 0, where the
claim and the ffit header require 4. -/
theorem free_foreign_pointer_eval :
    (buddyFree bhFresh 1023).1 = 4 ∧
    (buddyFree bhFresh 1061).1 = 4 ∧
    (buddyFree bhFresh 5000).1 = 4 ∧
    ffFresh96.mh = 1000 ∧ ffFresh96.hs = 96 ∧
    (ffitFree ffFresh96 1000).1 = 0 ∧
    (ffitFree ffFresh96 1003).1 = 0 ∧
    (ffitFree ffFresh96 1091).1 = 0 ∧
    (ffitFree ffFresh96 5000).1 = 0 := by
  exact ⟨by decide, by decide, by decide, by decide, by decide, by decide, by decide,
    by decide, by decide⟩

/-!
Claim C4 — content preservation of `extend`.  The ffit version copies with
`memcpy((char*)ret+4, (char*)ptr+4, k)`, but `ret` and `ptr` already are
payload pointers: the copy is displaced by 4 bytes at both ends, so the
first four payload bytes of the new block are never written and keep the
stale free-list bytes (0xff) of the block `getblock` carved out.
-/

/-- C4 evaluation: in the 200-byte arena, the block at payload pointer 1004
has payload size 27 and holds bytes 65..74; `extend(1004, 50)` succeeds and
moves the block to payload pointer 1036, but the first returned payload
byte is the stale value 255, not 65, so the first `min(27, 50) = 27` bytes
are not preserved. -/
theorem extend_content_preservation_eval :
    rd32 ffWritten.mem 0 >>> 1 = 32 ∧
    rd8 ffWritten.mem 4 = 65 ∧
    (ffitExtend ffWritten 1004 50).1 = 1036 ∧
    (1036 : ℕ) ≠ 1004 ∧
    (ffitExtend ffWritten 1004 50).2.1 = 0 ∧
    rd8 (ffitExtend ffWritten 1004 50).2.2.mem 36 = 255 ∧
    (255 : ℕ) ≠ 65 := by
  exact ⟨by decide, by decide, by decide, by decide, by decide, by decide, by decide⟩

/-- The step size chosen by the shrink loop -- `nextpow2(cz)`, quartered
when it overshoots -- is between 1 and the remainder `cz`. -/
theorem bshrink_step_bounds {cz : ℕ} (h1 : 0 < cz) (h2 : cz ≤ 2 ^ 31) :
    1 ≤ (if cz ≠ np2 cz then np2 cz >>> 2 else np2 cz) ∧
    (if cz ≠ np2 cz then np2 cz >>> 2 else np2 cz) ≤ cz := by
  by_cases he : cz = np2 cz
  · rw [if_neg (not_not_intro he)]
    omega
  · rw [if_pos he]
    have hcz3 : 3 ≤ cz := by
      by_contra hc
      push_neg at hc
      interval_cases cz
      · exact he (by decide)
      · exact he (by decide)
    have hnp := np2_eq (x := cz) (by omega) h2
    have hle := np2_le (x := cz) (by omega) h2
    have hl1 : 1 ≤ Nat.log2 (cz - 1) :=
      (Nat.le_log2 (by omega)).mpr (by omega)
    have h4 : 4 ≤ np2 cz := by
      rw [hnp]
      calc (4 : ℕ) = 2 ^ 2 := by norm_num
        _ ≤ 2 ^ (Nat.log2 (cz - 1) + 1) := Nat.pow_le_pow_right (by norm_num) (by omega)
    rw [Nat.shiftRight_eq_div_pow, show (2 : ℕ) ^ 2 = 4 by norm_num]
    omega

/-- With fuel at least `cz`, the shrink loop ends with remainder 0 and its
inserted blocks tile `[b, b + cz)` exactly. -/
theorem bshrinkLoop_tiles : ∀ (fuel : ℕ) (h : BuddyHeap) (b cz : ℕ),
    cz ≤ 2 ^ 31 → cz ≤ fuel → b + cz ≤ 2 ^ 31 →
    (bshrinkLoop fuel h b cz).2.2 = 0 ∧
    tiles b (b + cz) (bshrinkLoop fuel h b cz).2.1 := by
  intro fuel
  induction fuel with
  | zero =>
    intro h b cz h1 h2 h3
    have hz : cz = 0 := by omega
    subst hz
    exact ⟨rfl, rfl⟩
  | succ n ih =>
    intro h b cz h1 h2 h3
    by_cases hcz : 0 < cz
    · have hkb := bshrink_step_bounds hcz h1
      simp only [bshrinkLoop]
      rw [if_pos (by omega : cz > 0)]
      simp only []
      set k := if cz ≠ np2 cz then np2 cz >>> 2 else np2 cz with hk
      have hu32k : u32 k = k := by unfold u32; omega
      have hu32b : u32 (b + k) = b + k := by unfold u32; omega
      have hmod : (cz + 4294967296 - u32 k) % 4294967296 = cz - k := by
        rw [hu32k]; omega
      rw [hu32b, hmod]
      have hrec := ih (binsertB h b (buddyLog2 k)) (b + k) (cz - k)
        (by omega) (by omega) (by omega)
      refine ⟨hrec.1, rfl, ?_⟩
      have he : b + k + (cz - k) = b + cz := by omega
      rw [← he]
      exact hrec.2
    · have hz : cz = 0 := by omega
      subst hz
      simp only [bshrinkLoop]
      rw [if_neg (by omega : ¬ (0 : ℕ) > 0)]
      exact ⟨rfl, rfl⟩

/-- C8: for MINSIZE_BUD <= 2^s < 2^c (and the block inside the 31-bit
range), `bshrink` equals the simplified run, the loop terminates with
remainder 0, and the inserted blocks exactly tile the released tail
`[b + 2^s, b + 2^c)`. -/
theorem bshrink_tiles_released_tail (h : BuddyHeap) (b c s : ℕ)
    (_hs3 : 3 ≤ s) (hsc : s < c) (hc : c ≤ 31) (hb : b + 2 ^ c ≤ 2 ^ 31) :
    bshrink h b c s = (bshrinkRun h b c s).1 ∧
    (bshrinkRun h b c s).2.2 = 0 ∧
    tiles (b + 2 ^ s) (b + 2 ^ c) ((b + 2 ^ s, 2 ^ s) :: (bshrinkRun h b c s).2.1) := by
  have hp1 : (2 : ℕ) ^ (s + 1) = 2 * 2 ^ s := by rw [pow_succ]; ring
  have hp2 : (2 : ℕ) ^ (s + 1) ≤ 2 ^ c := Nat.pow_le_pow_right (by norm_num) (by omega)
  have hps : (2 : ℕ) ^ s ≤ 2 ^ c := Nat.pow_le_pow_right (by norm_num) (by omega)
  have hpc : (2 : ℕ) ^ c ≤ 2 ^ 31 := Nat.pow_le_pow_right (by norm_num) hc
  have h31 : (2 : ℕ) ^ 31 = 2147483648 := by norm_num
  have e1 : u32 (1 <<< c) = 2 ^ c := by
    rw [Nat.one_shiftLeft]; unfold u32; omega
  have e2 : u32 (1 <<< s) = 2 ^ s := by
    rw [Nat.one_shiftLeft]; unfold u32; omega
  have e3 : u32 (b + u32 (1 <<< s)) = b + 2 ^ s := by
    rw [e2]; unfold u32; omega
  have e4 : u32 (u32 (1 <<< s) <<< 1) = 2 ^ (s + 1) := by
    rw [e2, Nat.shiftLeft_eq, pow_one]; unfold u32; omega
  have e6 : u32 (u32 (b + u32 (1 <<< s)) + u32 (1 <<< s)) = b + 2 ^ (s + 1) := by
    rw [e3, e2]; unfold u32; omega
  have e5 : (u32 (1 <<< c) + 4294967296 - u32 (u32 (1 <<< s) <<< 1)) % 4294967296
      = 2 ^ c - 2 ^ (s + 1) := by
    rw [e1, e4]; omega
  have hrec := bshrinkLoop_tiles (2 ^ c - 2 ^ (s + 1) + 1)
    (binsertB { h with sh := putsize (erasesize h.sh (b >>> 3)) (b >>> 3) s }
      (b + 2 ^ s) s)
    (b + 2 ^ (s + 1)) (2 ^ c - 2 ^ (s + 1)) (by omega) (by omega) (by omega)
  refine ⟨?_, hrec.1, ?_⟩
  · unfold bshrink bshrinkRun
    simp only []
    rw [e6, e5, e3]
  · refine ⟨rfl, ?_⟩
    have he : b + 2 ^ s + 2 ^ s = b + 2 ^ (s + 1) := by omega
    have he2 : b + 2 ^ (s + 1) + (2 ^ c - 2 ^ (s + 1)) = b + 2 ^ c := by omega
    show tiles (b + 2 ^ s + 2 ^ s) (b + 2 ^ c) (bshrinkRun h b c s).2.1
    rw [he, ← he2]
    exact hrec.2

/-- Witness for bshrink_tiles_released_tail: shrinking a class-6 block at
offset 0 to class 3. -/
theorem bshrink_tiles_released_tail_witness :
    (3 ≤ 3 ∧ 3 < 6 ∧ 6 ≤ 31 ∧ 0 + 2 ^ 6 ≤ 2 ^ 31) ∧
    (bshrink bhClear 0 6 3 = (bshrinkRun bhClear 0 6 3).1 ∧
     (bshrinkRun bhClear 0 6 3).2.2 = 0 ∧
     tiles (0 + 2 ^ 3) (0 + 2 ^ 6) ((0 + 2 ^ 3, 2 ^ 3) :: (bshrinkRun bhClear 0 6 3).2.1)) :=
  ⟨⟨by decide, by decide, by decide, by decide⟩,
   bshrink_tiles_released_tail bhClear 0 6 3 (by decide) (by decide) (by decide) (by decide)⟩

/-- The `getblock` search loop returns an index at least its start, and
when the index is within the table the list there is non-empty. -/
theorem findAvail_spec (h : BuddyHeap) : ∀ (fuel i : ℕ), h.AMAX + 1 ≤ fuel + i →
    i ≤ findAvail h fuel i ∧
    (findAvail h fuel i ≤ h.AMAX → h.ah (findAvail h fuel i) ≠ NOBLOCK) := by
  intro fuel
  induction fuel with
  | zero =>
    intro i hf
    simp only [findAvail]
    exact ⟨le_refl i, fun hle => absurd hle (by omega)⟩
  | succ n ih =>
    intro i hf
    simp only [findAvail]
    by_cases hi : i ≤ h.AMAX
    · rw [if_pos hi]
      by_cases hb : h.ah i ≠ NOBLOCK
      · rw [if_pos hb]
        exact ⟨le_refl i, fun _ => hb⟩
      · rw [if_neg hb]
        have hrec := ih (i + 1) (by omega)
        exact ⟨by omega, hrec.2⟩
    · rw [if_neg hi]
      exact ⟨le_refl i, fun hle => absurd hle hi⟩

/-- The split loop preserves `msize`, and when it reaches the target class
with a real block, that block plus its class size stays within `msize`:
each `bsplit` re-heads the lower list with the very block being split. -/
theorem splitDown_spec (s : ℕ) : ∀ (fuel : ℕ) (h : BuddyHeap) (b i : ℕ),
    s ≤ i →
    (h.ah i ≠ NOBLOCK → h.ah i + 2 ^ i ≤ h.msize) →
    (b ≠ NOBLOCK → b + 2 ^ i ≤ h.msize) →
    (splitDown s fuel h b i).2.2.msize = h.msize ∧
    ((splitDown s fuel h b i).1 = s → (splitDown s fuel h b i).2.1 ≠ NOBLOCK →
      (splitDown s fuel h b i).2.1 + 2 ^ s ≤ h.msize) := by
  intro fuel
  induction fuel with
  | zero =>
    intro h b i hsi hhead hb
    simp only [splitDown]
    refine ⟨by trivial, fun h1 h2 => ?_⟩
    have hres := hb h2
    rw [h1] at hres
    exact hres
  | succ n ih =>
    intro h b i hsi hhead hb
    simp only [splitDown]
    by_cases hgt : i > s
    · rw [if_pos hgt]
      by_cases hnb : h.ah i = NOBLOCK
      · rw [if_pos hnb]
        exact ⟨rfl, fun _ hne => absurd hnb hne⟩
      · rw [if_neg hnb]
        have hf := bsplit_frame h (h.ah i) i
        have hms : (bsplit h (h.ah i) i).msize = h.msize := bscalars_msize hf.1
        have hbound := hhead hnb
        have hpow : (2 : ℕ) ^ (i - 1) ≤ 2 ^ i := Nat.pow_le_pow_right (by norm_num) (by omega)
        have hih := ih (bsplit h (h.ah i) i) (h.ah i) (i - 1)
          (by omega)
          (fun _ => by rw [hf.2, hms]; omega)
          (fun _ => by rw [hms]; omega)
        rw [hms] at hih
        exact hih
    · rw [if_neg hgt]
      refine ⟨rfl, fun h1 h2 => ?_⟩
      have hres := hb h2
      have hieq : i = s := by omega
      rw [hieq] at hres
      exact hres

/-- If every avail-list head lies within the main heap, a successful
`getblock` of `2^k` bytes returns a block offset with `b + 2^k <= msize`. -/
theorem getblockB_range (h : BuddyHeap) (k : ℕ) (hk : k ≤ 31)
    (hinv : ∀ j, j ≤ h.AMAX → h.ah j = NOBLOCK ∨ h.ah j + 2 ^ j ≤ h.msize) :
    (getblockB h (2 ^ k)).1 ≠ NOBLOCK →
    (getblockB h (2 ^ k)).1 + 2 ^ k ≤ h.msize := by
  have hlog : buddyLog2 (2 ^ k) = k := by
    rw [buddyLog2_eq_log2 (Nat.pos_pow_of_pos _ (by norm_num))
      (Nat.pow_lt_pow_right (by norm_num) (by omega))]
    exact log2_two_pow k
  unfold getblockB
  simp only []
  rw [hlog]
  have hfa := findAvail_spec h (h.AMAX + 2) k (by omega)
  set i0 := findAvail h (h.AMAX + 2) k with hi0def
  by_cases hi : i0 ≤ h.AMAX
  · rw [if_pos hi, if_pos hi]
    have hb0 : h.ah i0 ≠ NOBLOCK := hfa.2 hi
    have hki : k ≤ i0 := hfa.1
    have hhead : h.ah i0 + 2 ^ i0 ≤ h.msize := (hinv i0 hi).resolve_left hb0
    have hsd := splitDown_spec k (h.AMAX + 2) h (h.ah i0) i0 hki
      (fun _ => hhead) (fun _ => hhead)
    by_cases hcond : (splitDown k (h.AMAX + 2) h (h.ah i0) i0).1 = k ∧
        (splitDown k (h.AMAX + 2) h (h.ah i0) i0).2.1 ≠ NOBLOCK
    · rw [if_pos hcond]
      intro _
      exact hsd.2 hcond.1 hcond.2
    · rw [if_neg hcond]
      intro hne
      exact absurd rfl hne
  · rw [if_neg hi, if_neg hi]
    by_cases hcond : (i0, (NOBLOCK : ℕ), h).1 = k ∧ (i0, (NOBLOCK : ℕ), h).2.1 ≠ NOBLOCK
    · exact absurd rfl hcond.2
    · rw [if_neg hcond]
      intro hne
      exact absurd rfl hne

/-- On a chain where every node's block lies inside the region, the block
accepted by the first-fit walk satisfies `b + sz <= hs`. -/
theorem ffGetblockAux_range (sz : ℕ) : ∀ (fuel : ℕ) (h : FfitHeap) (p : ℕ),
    ffChainOk h fuel p = true →
    (ffGetblockAux sz fuel h p).1 ≠ NOBLOCK →
    (ffGetblockAux sz fuel h p).1 + sz ≤ h.hs := by
  intro fuel
  induction fuel with
  | zero =>
    intro h p _ hne
    exact absurd rfl hne
  | succ n ih =>
    intro h p hchain hne
    simp only [ffGetblockAux] at hne ⊢
    by_cases hp : p = NOBLOCK
    · rw [if_pos hp] at hne ⊢
      exact absurd rfl hne
    · rw [if_neg hp] at hne ⊢
      simp only [ffChainOk] at hchain
      rw [if_neg hp, Bool.and_eq_true, decide_eq_true_eq] at hchain
      by_cases hs : rd32 h.mem p >>> 1 ≥ sz
      · rw [if_pos hs] at hne ⊢
        show p + sz ≤ h.hs
        have := hchain.1
        omega
      · rw [if_neg hs] at hne ⊢
        exact ih h (rd32 h.mem (p + 4)) hchain.2 hne

/-- C1 (amended): for requests `n <= 2^31` on a well-formed arena, a
non-null `get(n)` result `p` keeps the `n` bytes inside `[mh, mh+hs)`:
buddy under the avail-head invariant with `msize <= hs`, `msize <= 2^31`
and no emergency heap; ffit under a valid avail chain.  The claim's
`every size_t n` is refuted separately: the request is truncated to 32
bits before sizing. -/
theorem get_block_within_region_amended :
    (∀ (h : BuddyHeap) (n : ℕ),
      (∀ j, j ≤ h.AMAX → h.ah j = NOBLOCK ∨ h.ah j + 2 ^ j ≤ h.msize) →
      h.msize ≤ h.hs → h.msize ≤ 2 ^ 31 → h.e = 0 → n ≤ 2 ^ 31 →
      (buddyGet h n).1 ≠ 0 →
      h.mh ≤ (buddyGet h n).1 ∧ (buddyGet h n).1 + n ≤ h.mh + h.hs) ∧
    (∀ (h : FfitHeap) (n : ℕ),
      ffChainOk h h.hs h.first = true → h.hs < 2 ^ 32 → n ≤ 2 ^ 31 →
      (ffitGet h n).1 ≠ 0 →
      h.mh ≤ (ffitGet h n).1 ∧ (ffitGet h n).1 + n ≤ h.mh + h.hs) := by
  constructor
  · intro h n hinv hms hm31 he hn hp
    unfold buddyGet at hp ⊢
    by_cases hn0 : n > 0
    · rw [if_pos hn0] at hp ⊢
      simp only [] at hp ⊢
      have hu : u32 n = n := by unfold u32; omega
      rw [hu] at hp ⊢
      have hks : ∃ k, k ≤ 31 ∧ (if n < 8 then 8 else np2 n) = 2 ^ k ∧
          n ≤ (if n < 8 then 8 else np2 n) := by
        by_cases hlt : n < 8
        · exact ⟨3, by omega, by rw [if_pos hlt]; norm_num, by rw [if_pos hlt]; omega⟩
        · refine ⟨Nat.log2 (n - 1) + 1, ?_, ?_, ?_⟩
          · have : Nat.log2 (n - 1) < 31 := by
              rw [log2_lt_iff (by omega)]
              omega
            omega
          · rw [if_neg hlt]
            exact np2_eq (by omega) hn
          · rw [if_neg hlt]
            exact np2_ge (by omega) hn
      obtain ⟨k, hk31, hspow, hns⟩ := hks
      set s := if n < 8 then 8 else np2 n with hsdef
      by_cases hsm : s < h.msize
      · rw [if_pos hsm] at hp ⊢
        have hrange := getblockB_range h k hk31 hinv
        rw [← hspow] at hrange
        by_cases hgb : (getblockB h s).1 ≠ NOBLOCK
        · rw [if_pos hgb] at hp ⊢
          have hbound := hrange hgb
          constructor
          · show h.mh ≤ h.mh + (getblockB h s).1
            omega
          · show h.mh + (getblockB h s).1 + n ≤ h.mh + h.hs
            omega
        · rw [if_neg hgb, he] at hp
          rw [if_neg (fun hc => hc rfl : ¬ (0 : ℕ) ≠ 0)] at hp
          exact absurd rfl hp
      · rw [if_neg hsm] at hp
        exact absurd rfl hp
    · rw [if_neg hn0] at hp
      exact absurd rfl hp
  · intro h n hchain hhs hn hp
    unfold ffitGet at hp ⊢
    by_cases hn0 : n > 0
    · rw [if_pos hn0] at hp ⊢
      simp only [] at hp ⊢
      have hu1 : u32 n = n := by unfold u32; omega
      have hu2 : u32 (n + 5) = n + 5 := by unfold u32; omega
      rw [hu1, hu2] at hp ⊢
      set s := if n + 5 < 32 then 32 else n + 5 with hsdef
      have hs5 : n + 5 ≤ s := by rw [hsdef]; split <;> omega
      by_cases hsh : s < h.hs
      · rw [if_pos hsh] at hp ⊢
        have hrange := ffGetblockAux_range s h.hs h h.first hchain
        by_cases hrb : (ffGetblockAux s h.hs h h.first).1 ≠ NOBLOCK
        · rw [if_pos hrb] at hp ⊢
          have hb := hrange hrb
          have hu3 : u32 ((ffGetblockAux s h.hs h h.first).1 + 4) =
              (ffGetblockAux s h.hs h h.first).1 + 4 := by
            unfold u32; omega
          rw [hu3] at hp ⊢
          constructor
          · show h.mh ≤ h.mh + ((ffGetblockAux s h.hs h h.first).1 + 4)
            omega
          · show h.mh + ((ffGetblockAux s h.hs h h.first).1 + 4) + n ≤ h.mh + h.hs
            omega
        · rw [if_neg hrb] at hp
          exact absurd rfl hp
      · rw [if_neg hsh] at hp
        exact absurd rfl hp
    · rw [if_neg hn0] at hp
      exact absurd rfl hp

/-- C1 counterexample: `get(2^32 + 8)` is truncated to a small request on
both arenas, returning a non-null pointer whose `n` bytes extend far
beyond the end of the region. -/
theorem get_block_within_region_counterexample :
    (buddyGet bhFresh (2 ^ 32 + 8)).1 = 1024 ∧
    (1024 : ℕ) ≠ 0 ∧
    bhFresh.mh + bhFresh.hs = 1088 ∧
    1088 < 1024 + (2 ^ 32 + 8) ∧
    (ffitGet ffFresh96 (2 ^ 32 + 8)).1 = 1004 ∧
    (1004 : ℕ) ≠ 0 ∧
    ffFresh96.mh + ffFresh96.hs = 1096 ∧
    1096 < 1004 + (2 ^ 32 + 8) := by
  exact ⟨by decide, by decide, by decide, by decide, by decide, by decide, by decide, by decide⟩

/-- Witness for get_block_within_region_amended: `get(5)` on the fresh
64-byte buddy arena and `get(27)` on the fresh 96-byte ffit arena. -/
theorem get_block_within_region_witness :
    ((∀ j, j ≤ bhFresh.AMAX →
        bhFresh.ah j = NOBLOCK ∨ bhFresh.ah j + 2 ^ j ≤ bhFresh.msize) ∧
     bhFresh.msize ≤ bhFresh.hs ∧ bhFresh.msize ≤ 2 ^ 31 ∧ bhFresh.e = 0 ∧
     (5 : ℕ) ≤ 2 ^ 31 ∧ (buddyGet bhFresh 5).1 ≠ 0 ∧
     bhFresh.mh ≤ (buddyGet bhFresh 5).1 ∧
     (buddyGet bhFresh 5).1 + 5 ≤ bhFresh.mh + bhFresh.hs) ∧
    (ffChainOk ffFresh96 ffFresh96.hs ffFresh96.first = true ∧
     ffFresh96.hs < 2 ^ 32 ∧ (27 : ℕ) ≤ 2 ^ 31 ∧ (ffitGet ffFresh96 27).1 ≠ 0 ∧
     ffFresh96.mh ≤ (ffitGet ffFresh96 27).1 ∧
     (ffitGet ffFresh96 27).1 + 27 ≤ ffFresh96.mh + ffFresh96.hs) := by
  refine ⟨⟨by decide, by decide, by decide, by decide, by decide, by decide, ?_, ?_⟩,
          ⟨by decide, by decide, by decide, by decide, ?_, ?_⟩⟩
  · exact (get_block_within_region_amended.1 bhFresh 5 (by decide) (by decide) (by decide)
      (by decide) (by decide) (by decide)).1
  · exact (get_block_within_region_amended.1 bhFresh 5 (by decide) (by decide) (by decide)
      (by decide) (by decide) (by decide)).2
  · exact (get_block_within_region_amended.2 ffFresh96 27 (by decide) (by decide) (by decide)
      (by decide)).1
  · exact (get_block_within_region_amended.2 ffFresh96 27 (by decide) (by decide) (by decide)
      (by decide)).2

end Memman
